import Mathlib

/-!
# Eidikoswebapp: `app/static/script.js`

A shallow embedding of the client script and the properties proved about it.

Numbers.  Section 1 embeds the particle field over an arbitrary linear ordered field
`α` (instantiate with `ℚ` to run the definitions), with `Math.sqrt` a parameter
`sqrt : α → α`: there every operation is exact.  The theorems stated on these
definitions follow the branch structure of the script and use no law of arithmetic
that its doubles lack.  Section 3 embeds the same code with the result of every
operation rounded by a parameter `rnd`, and defines the rounding of IEEE 754
doubles, `roundDouble`, and their square root, `sqrtDouble`, on `ℚ`; the theorems
on rounding-sensitive properties are stated there.  `NaN` and infinities are
outside both models: the only place where the script can produce them from finite
data is the division by `distance` in `Particle.update` when `distance` is `0`, and
the theorems that run that branch exclude it.

DOM.  A document is the list of its elements in tree order; a node is referred
to by its position in that list, and a `NodeList` is a list of such positions.
-/

namespace Eidikos

/-! ## 1. Particle field -/

/-- Module-level `mouse` object: `{ x: null, y: null, radius: 150 }`. -/
structure Mouse (α : Type) where
  x : Option α
  y : Option α
  radius : α

/-- JavaScript numeric conversion of a value that is a number or `null`. -/
def toNumber {α : Type} [Zero α] : Option α → α
  | none => 0
  | some a => a

/-- Instances of `class Particle`.  `oid` is the identity of the object (the
serial number of its construction); it is not a source field and no method
reads or writes it. -/
structure Particle (α : Type) where
  oid : Nat
  x : α
  y : α
  vx : α
  vy : α
  size : α
  baseColor : String
  opacity : α

/-- Method `Particle.update()`, with the module variables `width`, `height` and
`mouse` it reads passed explicitly. -/
def Particle.update {α : Type} [LinearOrderedField α] (sqrt : α → α)
    (width height : α) (mouse : Mouse α) (p : Particle α) : Particle α :=
  -- this.x += this.vx; this.y += this.vy;
  let x := p.x + p.vx
  let y := p.y + p.vy
  -- Bounce off edges
  let vx := if x < 0 ∨ x > width then p.vx * -1 else p.vx
  let vy := if y < 0 ∨ y > height then p.vy * -1 else p.vy
  -- Mouse interaction
  if mouse.x ≠ none then
    let dx := toNumber mouse.x - x
    let dy := toNumber mouse.y - y
    let distance := sqrt (dx * dx + dy * dy)
    if distance < mouse.radius then
      let forceDirectionX := dx / distance
      let forceDirectionY := dy / distance
      let force := (mouse.radius - distance) / mouse.radius
      let directionX := forceDirectionX * force * 3
      let directionY := forceDirectionY * force * 3
      { p with x := x - directionX, y := y - directionY, vx := vx, vy := vy }
    else
      { p with x := x, y := y, vx := vx, vy := vy }
  else
    { p with x := x, y := y, vx := vx, vy := vy }

/-- The initial pointer state of the script. -/
def Mouse.init {α : Type} [LinearOrderedField α] : Mouse α :=
  { x := none, y := none, radius := 150 }

/-- Listener for `mousemove`; `left`, `top` come from `getBoundingClientRect`. -/
def onMouseMove {α : Type} [LinearOrderedField α] (clientX clientY left top : α)
    (mouse : Mouse α) : Mouse α :=
  { mouse with x := some (clientX - left), y := some (clientY - top) }

/-- Listener for `mouseout`. -/
def onMouseOut {α : Type} (mouse : Mouse α) : Mouse α :=
  { mouse with x := none, y := none }

/-- The part of the browser environment the particle field reads: the
successive results of `Math.random()`, `window.innerWidth` and the
`offsetHeight` of the `.hero` element. -/
structure Env (α : Type) where
  random : Nat → α
  innerWidth : α
  heroHeight : α

/-- The module-level variables `width`, `height`, `particles`, `mouse`, with two
counters: how many times `Math.random()` has been called and how many `Particle`
objects have been constructed. -/
structure Scene (α : Type) where
  width : α
  height : α
  particles : List (Particle α)
  mouse : Mouse α
  draws : Nat
  allocated : Nat

/-- Function `resize()`. -/
def resize {α : Type} (env : Env α) (s : Scene α) : Scene α :=
  { s with width := env.innerWidth, height := env.heroHeight }

/-- Constructor `new Particle()`: seven calls of `Math.random()`, in source order. -/
def Particle.new {α : Type} [LinearOrderedField α] (env : Env α) (width height : α)
    (draws oid : Nat) : Particle α :=
  { oid := oid
    x := env.random draws * width
    y := env.random (draws + 1) * height
    vx := (env.random (draws + 2) - 0.5) * 1.5
    vy := (env.random (draws + 3) - 0.5) * 1.5
    size := env.random (draws + 4) * 2 + 1
    baseColor := if env.random (draws + 5) > 0.5 then "212, 175, 55" else "255, 255, 255"
    opacity := env.random (draws + 6) * 0.5 + 0.1 }

/-- Statement `particles.push(new Particle())`. -/
def pushParticle {α : Type} [LinearOrderedField α] (env : Env α) (s : Scene α) : Scene α :=
  { s with
    particles := s.particles ++ [Particle.new env s.width s.height s.draws s.allocated]
    draws := s.draws + 7
    allocated := s.allocated + 1 }

/-- The loop `for (let i = 0; i < particleCount; i++) particles.push(new Particle())`,
from the value of `i` on entry. -/
def pushLoop {α : Type} [LinearOrderedField α] (env : Env α) (particleCount : ℤ) :
    Nat → Nat → Scene α → Scene α
  | 0, _, s => s
  | fuel + 1, i, s =>
    if (i : ℤ) < particleCount then pushLoop env particleCount fuel (i + 1) (pushParticle env s)
    else s

/-- Function `initParticles()`.  The loop runs at most `particleCount` times, which
is the fuel it is given. -/
def initParticles {α : Type} [LinearOrderedField α] [FloorRing α] (env : Env α)
    (s : Scene α) : Scene α :=
  let s := { s with particles := [] }
  let particleCount : ℤ := ⌊env.innerWidth / 12⌋
  pushLoop env particleCount particleCount.toNat 0 s

/-- Listener for `resize`: `resize(); initParticles();`. -/
def onResize {α : Type} [LinearOrderedField α] [FloorRing α] (env : Env α)
    (s : Scene α) : Scene α :=
  initParticles env (resize env s)

/-- What one frame puts on the canvas.  `arc` stands for the four calls of
`Particle.draw()`, `line` for the six calls that stroke one segment; `line`
also records the loop indices `i`, `j` at which it was issued. -/
inductive DrawCmd (α : Type) where
  | clearRect (x y w h : α)
  | arc (x y size : α) (baseColor : String) (opacity : α)
  | line (i j : Nat) (alpha x1 y1 x2 y2 : α)

/-- The alpha written into `strokeStyle`: `0.15 - distance / 800`. -/
def strokeAlpha {α : Type} [LinearOrderedField α] (distance : α) : α :=
  0.15 - distance / 800

/-- Method `Particle.draw()`. -/
def Particle.draw {α : Type} (p : Particle α) : DrawCmd α :=
  DrawCmd.arc p.x p.y p.size p.baseColor p.opacity

/-- Body of the inner loop of `animate` for one `j`. -/
def connect {α : Type} [LinearOrderedField α] (sqrt : α → α)
    (particles : List (Particle α)) (i j : Nat) : List (DrawCmd α) :=
  match particles[i]?, particles[j]? with
  | some pi, some pj =>
    let dx := pi.x - pj.x
    let dy := pi.y - pj.y
    let distance := sqrt (dx * dx + dy * dy)
    if distance < 120 then [DrawCmd.line i j (strokeAlpha distance) pi.x pi.y pj.x pj.y]
    else []
  | _, _ => []

/-- Body of the outer loop of `animate` for one `i`: `particles[i].update()`,
`particles[i].draw()`, then the inner loop over `j = i, ..., particles.length - 1`. -/
def animateStep {α : Type} [LinearOrderedField α] (sqrt : α → α) (width height : α)
    (mouse : Mouse α) (acc : List (Particle α) × List (DrawCmd α)) (i : Nat) :
    List (Particle α) × List (DrawCmd α) :=
  let particles := List.modify (Particle.update sqrt width height mouse) i acc.1
  let drawn := match particles[i]? with
    | some p => [p.draw]
    | none => []
  (particles,
    acc.2 ++ drawn ++ (List.range' i (particles.length - i)).flatMap (connect sqrt particles i))

/-- Function `animate()`: one frame.  Returns the module state after the frame
and the canvas commands issued, in order.  The closing
`requestAnimationFrame(animate)` only schedules the next frame. -/
def animate {α : Type} [LinearOrderedField α] (sqrt : α → α) (s : Scene α) :
    Scene α × List (DrawCmd α) :=
  let r := (List.range s.particles.length).foldl
    (animateStep sqrt s.width s.height s.mouse)
    (s.particles, [DrawCmd.clearRect 0 0 s.width s.height])
  ({ s with particles := r.1 }, r.2)

/-- Whether a canvas command is a segment stroked for the unordered pair `a`, `b`. -/
def DrawCmd.isLineBetween {α : Type} (a b : Nat) : DrawCmd α → Bool
  | DrawCmd.line i j _ _ _ _ _ => (i == a && j == b) || (i == b && j == a)
  | _ => false

/-- Distance between two points, as both loops of the script compute it. -/
def euclid {α : Type} [LinearOrderedField α] (sqrt : α → α) (x1 y1 x2 y2 : α) : α :=
  sqrt ((x1 - x2) * (x1 - x2) + (y1 - y2) * (y1 - y2))

/-! ## 2. DOM glue -/

/-- A DOM element: its ID (absent when the `id` attribute is missing or empty), its
`classList` and its other attributes. -/
structure Element where
  id : Option String
  classList : List String
  attributes : List (String × String)

/-- A document: its elements in tree order. -/
abbrev Document := List Element

/-- Method `classList.add`. -/
def Element.addClass (cls : String) (e : Element) : Element :=
  if cls ∈ e.classList then e else { e with classList := e.classList ++ [cls] }

/-- Method `classList.remove`. -/
def Element.removeClass (cls : String) (e : Element) : Element :=
  { e with classList := e.classList.filter (fun c => c ≠ cls) }

/-- Method `getAttribute`: `null` when the attribute is absent. -/
def Element.getAttribute (name : String) (e : Element) : Option String :=
  (e.attributes.find? (fun a => a.1 = name)).map (fun a => a.2)

/-- Call `node.classList.add(cls)` on the node at position `n`. -/
def classListAdd (doc : Document) (n : Nat) (cls : String) : Document :=
  List.modify (Element.addClass cls) n doc

/-- Call `node.classList.remove(cls)` on the node at position `n`. -/
def classListRemove (doc : Document) (n : Nat) (cls : String) : Document :=
  List.modify (Element.removeClass cls) n doc

/-- Call `node.getAttribute(name)` on the node at position `n`. -/
def getAttribute (doc : Document) (n : Nat) (name : String) : Option String :=
  doc[n]?.bind (Element.getAttribute name)

/-- Whether the node at position `n` carries the class `cls`. -/
def hasClass (doc : Document) (n : Nat) (cls : String) : Prop :=
  ∃ e, doc[n]? = some e ∧ cls ∈ e.classList

/-- Call `document.getElementById(key)`: the first element in tree order whose
ID is `key`. -/
def getElementById : Document → String → Option Nat
  | [], _ => none
  | e :: rest, key =>
    if e.id = some key then some 0 else (getElementById rest key).map (fun n => n + 1)

/-- The ID of the node at position `n`. -/
def idOf (doc : Document) (n : Nat) : Option String :=
  doc[n]?.bind (fun e => e.id)

/-- Callback of `flagshipCards.forEach` in the filter listener, for one card. -/
def filterCard (filterValue : Option String) (doc : Document) (card : Nat) : Document :=
  if filterValue = some "all" ∨ getAttribute doc card "data-category" = filterValue then
    classListAdd (classListRemove doc card "hide") card "show"
  else
    classListAdd (classListRemove doc card "show") card "hide"

/-- Click listener of the filter button `btn`. -/
def filterClick (filterBtns flagshipCards : List Nat) (btn : Nat) (doc : Document) :
    Document :=
  let doc := filterBtns.foldl (fun d b => classListRemove d b "active") doc
  let doc := classListAdd doc btn "active"
  let filterValue := getAttribute doc btn "data-filter"
  flagshipCards.foldl (filterCard filterValue) doc

/-- Click listener of the tab button `btn`.  A `null` argument of
`getElementById` is converted to the string `"null"`. -/
def tabClick (tabBtns tabContents : List Nat) (btn : Nat) (doc : Document) : Document :=
  let doc := tabBtns.foldl (fun d b => classListRemove d b "active") doc
  let doc := tabContents.foldl (fun d c => classListRemove d c "active") doc
  let doc := classListAdd doc btn "active"
  let tabId := getAttribute doc btn "data-tab"
  match getElementById doc (tabId.getD "null") with
  | some tabContent => classListAdd doc tabContent "active"
  | none => doc

/-- Expression `window.location.pathname.split('/').pop()`. -/
def currentPage (pathname : String) : String :=
  String.mk ((List.splitOn '/' pathname.data).getLast?.getD [])

/-- Callback of `navLinks.forEach` in the highlight listener, for one link. -/
def highlightLink (currentPage : String) (doc : Document) (link : Nat) : Document :=
  let linkPage := getAttribute doc link "href"
  if linkPage = some currentPage ∨
      (currentPage = "" ∧ linkPage = some "index.html") ∨
      (currentPage = "index.html" ∧ linkPage = some "index.html") then
    classListAdd doc link "active"
  else
    classListRemove doc link "active"

/-- Listener for `DOMContentLoaded` that highlights the active navigation link. -/
def navHighlight (pathname : String) (navLinks : List Nat) (doc : Document) : Document :=
  navLinks.foldl (highlightLink (currentPage pathname)) doc

/-- Whether a card is displayed: it carries `show` and not `hide`. -/
def shown (doc : Document) (card : Nat) : Prop :=
  hasClass doc card "show" ∧ ¬ hasClass doc card "hide"

/-- Whether a card is hidden: it carries `hide` and not `show`. -/
def hidden (doc : Document) (card : Nat) : Prop :=
  hasClass doc card "hide" ∧ ¬ hasClass doc card "show"

/-- Class membership of a node can be computed. -/
instance hasClassDecidable (doc : Document) (n : Nat) (cls : String) :
    Decidable (hasClass doc n cls) :=
  match h : doc[n]? with
  | none => isFalse (by rintro ⟨e, he, _⟩; rw [h] at he; exact Option.noConfusion he)
  | some e =>
    if hc : cls ∈ e.classList then isTrue ⟨e, h, hc⟩
    else isFalse (by
      rintro ⟨e2, he, hc2⟩
      rw [h] at he
      exact hc (Option.some.inj he ▸ hc2))

/-! ## 3. The script's rounded arithmetic

JavaScript numbers are IEEE 754 doubles: the result of every arithmetic operation
is the exact result rounded to a double.  The definitions of this section take the
rounding as a parameter `rnd`; with `rnd` the identity they are the definitions of
section 1, and with `rnd := roundDouble`, `sqrt := sqrtDouble` they compute what
the script computes (overflow to `Infinity` and `NaN` apart). -/

/-- Method `Particle.update()` with the result of every arithmetic operation rounded
by `rnd`, in the order in which the script evaluates them. -/
def Particle.updateRounded {α : Type} [LinearOrderedField α] (rnd sqrt : α → α)
    (width height : α) (mouse : Mouse α) (p : Particle α) : Particle α :=
  -- this.x += this.vx; this.y += this.vy;
  let x := rnd (p.x + p.vx)
  let y := rnd (p.y + p.vy)
  -- Bounce off edges
  let vx := if x < 0 ∨ x > width then rnd (p.vx * -1) else p.vx
  let vy := if y < 0 ∨ y > height then rnd (p.vy * -1) else p.vy
  -- Mouse interaction
  if mouse.x ≠ none then
    let dx := rnd (toNumber mouse.x - x)
    let dy := rnd (toNumber mouse.y - y)
    let distance := sqrt (rnd (rnd (dx * dx) + rnd (dy * dy)))
    if distance < mouse.radius then
      let forceDirectionX := rnd (dx / distance)
      let forceDirectionY := rnd (dy / distance)
      let force := rnd (rnd (mouse.radius - distance) / mouse.radius)
      let directionX := rnd (rnd (forceDirectionX * force) * 3)
      let directionY := rnd (rnd (forceDirectionY * force) * 3)
      { p with x := rnd (x - directionX), y := rnd (y - directionY), vx := vx, vy := vy }
    else
      { p with x := x, y := y, vx := vx, vy := vy }
  else
    { p with x := x, y := y, vx := vx, vy := vy }

/-- The alpha written into `strokeStyle`, `0.15 - distance / 800`, with the literal
`0.15` and the result of both operations rounded by `rnd`. -/
def strokeAlphaRounded {α : Type} [LinearOrderedField α] (rnd : α → α) (distance : α) : α :=
  rnd (rnd 0.15 - rnd (distance / 800))

/-- Body of the inner loop of `animate` for one `j`, with rounded arithmetic. -/
def connectRounded {α : Type} [LinearOrderedField α] (rnd sqrt : α → α)
    (particles : List (Particle α)) (i j : Nat) : List (DrawCmd α) :=
  match particles[i]?, particles[j]? with
  | some pi, some pj =>
    let dx := rnd (pi.x - pj.x)
    let dy := rnd (pi.y - pj.y)
    let distance := sqrt (rnd (rnd (dx * dx) + rnd (dy * dy)))
    if distance < 120 then
      [DrawCmd.line i j (strokeAlphaRounded rnd distance) pi.x pi.y pj.x pj.y]
    else []
  | _, _ => []

/-- Rounding of a rational to the nearest integer, ties to the even one. -/
def roundHalfEven (q : ℚ) : ℤ :=
  if 2 * (q - ⌊q⌋) < 1 then ⌊q⌋
  else if 1 < 2 * (q - ⌊q⌋) then ⌊q⌋ + 1
  else if ⌊q⌋ % 2 = 0 then ⌊q⌋ else ⌊q⌋ + 1

/-- The spacing of the doubles around `q`: `2 ^ (e - 52)` where `2 ^ e ≤ |q| < 2 ^ (e + 1)`,
and `e = -1022` in the subnormal range. -/
def quantum (q : ℚ) : ℚ := 2 ^ (max (Int.log 2 |q|) (-1022) - 52)

/-- IEEE 754 binary64 rounding to nearest, ties to even, of an exact result `q`
(results of magnitude `2 ^ 1024` and above, which the script turns into
`Infinity`, are not capped). -/
def roundDouble (q : ℚ) : ℚ := roundHalfEven (q / quantum q) * quantum q

/-- `Math.sqrt` on doubles: the square root rounded to the nearest double.  The
integer square root of `q * 4 ^ 600` gives the root to 600 binary places, below
the spacing of any double; half a unit is added when the root is not exact, so
that the rounding falls on the side of the real root. -/
def sqrtDouble (q : ℚ) : ℚ :=
  let t := Nat.sqrt ⌊q * 4 ^ 600⌋₊
  roundDouble (((t : ℚ) + (if (t : ℚ) * t = q * 4 ^ 600 then 0 else 1 / 2)) / 2 ^ 600)

/-- Value of the local variable `distance` of `Particle.update()`, in rounded
arithmetic. -/
def Particle.pointerDistance {α : Type} [LinearOrderedField α] (rnd sqrt : α → α)
    (mouse : Mouse α) (p : Particle α) : α :=
  let x := rnd (p.x + p.vx)
  let y := rnd (p.y + p.vy)
  let dx := rnd (toNumber mouse.x - x)
  let dy := rnd (toNumber mouse.y - y)
  sqrt (rnd (rnd (dx * dx) + rnd (dy * dy)))

/-! ## 4. Concrete data used to instantiate the theorems -/

/-- A particle drifting to the right, on the rationals. -/
def sampleParticle : Particle ℚ :=
  { oid := 0, x := 95, y := 20, vx := 1 / 2, vy := -1 / 4, size := 2,
    baseColor := "255, 255, 255", opacity := 3 / 10 }

/-- A particle standing at (3, 4). -/
def restingParticle : Particle ℚ :=
  { oid := 1, x := 3, y := 4, vx := 0, vy := 0, size := 1,
    baseColor := "212, 175, 55", opacity := 1 / 2 }

/-- A page with two tab buttons and two panels, all ids distinct: the first button
has id `intro`, and the second button targets `intro`. -/
def tabDoc : Document :=
  [ { id := some "intro", classList := ["tab-btn", "active"],
      attributes := [("data-tab", "p1")] },
    { id := none, classList := ["tab-btn"], attributes := [("data-tab", "intro")] },
    { id := some "p1", classList := ["tab-content", "active"], attributes := [] },
    { id := some "p2", classList := ["tab-content"], attributes := [] } ]

/-- A page with tab buttons `t1`, `t2` (positions 0, 1) mapped to panels `p1`, `p2`
(positions 2, 3). -/
def tabsPage : Document :=
  [ { id := some "t1", classList := ["tab-btn", "active"],
      attributes := [("data-tab", "p1")] },
    { id := some "t2", classList := ["tab-btn"], attributes := [("data-tab", "p2")] },
    { id := some "p1", classList := ["tab-content", "active"], attributes := [] },
    { id := some "p2", classList := ["tab-content"], attributes := [] } ]

/-- A page with filter buttons `all`, `electronics`, `books` (positions 0 to 2) and
cards tagged `electronics`, `books`, `electronics` (positions 3 to 5). -/
def filterPage : Document :=
  [ { id := none, classList := ["filter-btn", "active"],
      attributes := [("data-filter", "all")] },
    { id := none, classList := ["filter-btn"], attributes := [("data-filter", "electronics")] },
    { id := none, classList := ["filter-btn"], attributes := [("data-filter", "books")] },
    { id := none, classList := ["flagship-card", "show"],
      attributes := [("data-category", "electronics")] },
    { id := none, classList := ["flagship-card", "show"],
      attributes := [("data-category", "books")] },
    { id := none, classList := ["flagship-card", "show"],
      attributes := [("data-category", "electronics")] } ]

/-- A page with navigation links to `index.html`, `programs.html`, `contact.html`,
the last one marked active in the markup. -/
def navPage : Document :=
  [ { id := none, classList := ["navbar-link"], attributes := [("href", "index.html")] },
    { id := none, classList := ["navbar-link"], attributes := [("href", "programs.html")] },
    { id := none, classList := ["navbar-link", "active"],
      attributes := [("href", "contact.html")] } ]

/-- A browser environment with a 30 pixel wide viewport. -/
def sampleEnv : Env ℚ :=
  { random := fun n => 1 / ((n : ℚ) + 2), innerWidth := 30, heroHeight := 20 }

/-- A particle field holding the two sample particles. -/
def sampleScene : Scene ℚ :=
  { width := 30, height := 20, particles := [sampleParticle, restingParticle],
    mouse := Mouse.init, draws := 14, allocated := 2 }

/-- Two particles on the x axis, pointer absent: one resting at the origin, one at
x = 119.5 moving right by 1 per frame. -/
def lagScene : Scene ℚ :=
  { width := 1000, height := 1000,
    particles :=
      [ { oid := 0, x := 0, y := 0, vx := 0, vy := 0, size := 1,
          baseColor := "255, 255, 255", opacity := 1 / 2 },
        { oid := 1, x := 239 / 2, y := 0, vx := 1, vy := 0, size := 1,
          baseColor := "255, 255, 255", opacity := 1 / 2 } ],
    mouse := Mouse.init, draws := 14, allocated := 2 }

/-- The particles of `lagScene` with the pointer at (0, 200). -/
def farPointerScene : Scene ℚ :=
  { width := 1000, height := 1000, particles := lagScene.particles,
    mouse := { x := some 0, y := some 200, radius := 150 }, draws := 14, allocated := 2 }

/-- A particle at x = 1023.9 (the double written so) moving right by 0.5 per frame. -/
def edgeParticle : Particle ℚ :=
  { oid := 0, x := 9006319645438771 / 8796093022208, y := 0, vx := 1 / 2, vy := 0,
    size := 1, baseColor := "255, 255, 255", opacity := 1 / 2 }

/-- A particle on the right edge of a surface of width 1023, moving right by
1.0000000000001421 per frame (the double `1 + 5 * 2 ^ (-45)`). -/
def fastParticle : Particle ℚ :=
  { oid := 0, x := 1023, y := 0, vx := 35184372088837 / 35184372088832, vy := 0,
    size := 1, baseColor := "255, 255, 255", opacity := 1 / 2 }

/-- The double written 350.0000000000001, which is `350 + 2 ^ (-43)`. -/
def rimX : ℚ := 3078632557772801 / 8796093022208

/-- The double 149.9999999999999, which is `150 - 2 ^ (-43)`. -/
def rimD : ℚ := 1319413953331199 / 8796093022208

/-- The double nearest to `rimD * rimD`. -/
def rimQ : ℚ := 6184752906239991 / 274877906944

/-- The double nearest to `2 ^ (-43) / 150`. -/
def rimF : ℚ := 7686143364045647 / 10141204801825835211973625643008

/-- The double nearest to `3 * rimF`. -/
def rimG : ℚ := 5764607523034235 / 2535301200456458802993406410752

/-- A particle at rest at (350.0000000000001, 300). -/
def rimParticle : Particle ℚ :=
  { oid := 0, x := rimX, y := 300, vx := 0, vy := 0,
    size := 1, baseColor := "255, 255, 255", opacity := 1 / 2 }

/-- The pointer at (500, 300). -/
def rimMouse : Mouse ℚ :=
  { x := some 500, y := some 300, radius := 150 }

/-- The double just below 120, which is `120 - 2 ^ (-46)`. -/
def belowThreshold : ℚ := 8444249301319679 / 70368744177664

/-! ### Theorems on `Particle.update` -/

/-- C1: with the pointer absent and the integrated position inside the surface,
`update` sets the position to position plus velocity and changes nothing else. -/
theorem update_no_pointer_inside {α : Type} [LinearOrderedField α] (sqrt : α → α)
    (width height : α) (mouse : Mouse α) (p : Particle α)
    (hm : mouse.x = none)
    (hx0 : 0 ≤ p.x + p.vx) (hx1 : p.x + p.vx ≤ width)
    (hy0 : 0 ≤ p.y + p.vy) (hy1 : p.y + p.vy ≤ height) :
    p.update sqrt width height mouse = { p with x := p.x + p.vx, y := p.y + p.vy } := by
  have hx : ¬ (p.x + p.vx < 0 ∨ p.x + p.vx > width) := by
    rintro (h | h)
    · exact absurd h (not_lt.mpr hx0)
    · exact absurd h (not_lt.mpr hx1)
  have hy : ¬ (p.y + p.vy < 0 ∨ p.y + p.vy > height) := by
    rintro (h | h)
    · exact absurd h (not_lt.mpr hy0)
    · exact absurd h (not_lt.mpr hy1)
  simp [Particle.update, hm, hx, hy]

/-- C2: with the pointer absent, an integrated x beyond the surface width (y staying
inside) negates `vx`; the position is the integrated one, unclamped, and nothing
else changes. -/
theorem update_reflect_right {α : Type} [LinearOrderedField α] (sqrt : α → α)
    (width height : α) (mouse : Mouse α) (p : Particle α)
    (hm : mouse.x = none)
    (hx : width < p.x + p.vx)
    (hy0 : 0 ≤ p.y + p.vy) (hy1 : p.y + p.vy ≤ height) :
    p.update sqrt width height mouse =
      { p with x := p.x + p.vx, y := p.y + p.vy, vx := -p.vx } := by
  have hx2 : p.x + p.vx < 0 ∨ p.x + p.vx > width := Or.inr hx
  have hy : ¬ (p.y + p.vy < 0 ∨ p.y + p.vy > height) := by
    rintro (h | h)
    · exact absurd h (not_lt.mpr hy0)
    · exact absurd h (not_lt.mpr hy1)
  simp [Particle.update, hm, hx2, hy]

/-- Witness of C1: a particle at (95, 20) with velocity (1/2, -1/4) on a 100 x 50 surface. -/
theorem update_no_pointer_inside_witness :
    sampleParticle.update Rat.sqrt 100 50 Mouse.init =
      { sampleParticle with x := sampleParticle.x + sampleParticle.vx,
                            y := sampleParticle.y + sampleParticle.vy } :=
  update_no_pointer_inside Rat.sqrt 100 50 Mouse.init sampleParticle rfl
    (by norm_num [sampleParticle]) (by norm_num [sampleParticle])
    (by norm_num [sampleParticle]) (by norm_num [sampleParticle])

/-- Witness of C2: the same particle on a surface of width 95.25. -/
theorem update_reflect_right_witness :
    sampleParticle.update Rat.sqrt (381 / 4) 50 Mouse.init =
      { sampleParticle with x := sampleParticle.x + sampleParticle.vx,
                            y := sampleParticle.y + sampleParticle.vy,
                            vx := -sampleParticle.vx } :=
  update_reflect_right Rat.sqrt (381 / 4) 50 Mouse.init sampleParticle rfl
    (by norm_num [sampleParticle]) (by norm_num [sampleParticle])
    (by norm_num [sampleParticle])

/-- Pointer repulsion when no operation rounds.  `d` is the distance between the
pointer `(mx, my)` and the integrated position, assumed to be the Euclidean
distance (`d * d` is the squared distance); `q0` is the result of the same update
with the pointer absent.  If `0 < d < 150` the particle is displaced from the
integrated position by the unit vector pointing from the pointer to the particle
times `3 * (150 - d) / 150`, its distance to the pointer becomes
`d + 3 * (150 - d) / 150 > d`, and the velocity is the one the update without
pointer gives.  If `150 ≤ d` the update equals the update without pointer. -/
theorem update_pointer_repulsion_exact {α : Type} [LinearOrderedField α] (sqrt : α → α)
    (width height mx my d : α) (my0 : Option α) (p q q0 : Particle α)
    (hd : d = sqrt ((mx - (p.x + p.vx)) * (mx - (p.x + p.vx)) +
                    (my - (p.y + p.vy)) * (my - (p.y + p.vy))))
    (hsq : d * d = (mx - (p.x + p.vx)) * (mx - (p.x + p.vx)) +
                    (my - (p.y + p.vy)) * (my - (p.y + p.vy)))
    (hq : q = p.update sqrt width height { x := some mx, y := some my, radius := 150 })
    (hq0 : q0 = p.update sqrt width height { x := none, y := my0, radius := 150 }) :
    q0.x = p.x + p.vx ∧ q0.y = p.y + p.vy ∧
    (0 < d → d < 150 →
      ((q0.x - mx) / d) ^ 2 + ((q0.y - my) / d) ^ 2 = 1 ∧
      q.x = q0.x + (q0.x - mx) / d * (3 * (150 - d) / 150) ∧
      q.y = q0.y + (q0.y - my) / d * (3 * (150 - d) / 150) ∧
      (q.x - mx) ^ 2 + (q.y - my) ^ 2 = (d + 3 * (150 - d) / 150) ^ 2 ∧
      d < d + 3 * (150 - d) / 150 ∧
      q.vx = q0.vx ∧ q.vy = q0.vy) ∧
    (150 ≤ d → q = q0) := by
  subst hq
  subst hq0
  have hx0 : (p.update sqrt width height { x := none, y := my0, radius := 150 }).x
      = p.x + p.vx := by simp [Particle.update]
  have hy0 : (p.update sqrt width height { x := none, y := my0, radius := 150 }).y
      = p.y + p.vy := by simp [Particle.update]
  refine ⟨hx0, hy0, ?_, ?_⟩
  · intro hpos hlt
    have hlt2 : sqrt ((mx - (p.x + p.vx)) * (mx - (p.x + p.vx)) +
        (my - (p.y + p.vy)) * (my - (p.y + p.vy))) < 150 := by rw [← hd]; exact hlt
    have hne : d ≠ 0 := ne_of_gt hpos
    have hk : 0 < 3 * (150 - d) / 150 := by
      apply div_pos _ (by norm_num)
      linarith
    have hqx : (p.update sqrt width height { x := some mx, y := some my, radius := 150 }).x
        = (p.x + p.vx) + ((p.x + p.vx) - mx) / d * (3 * (150 - d) / 150) := by
      simp only [Particle.update, toNumber, ne_eq, not_false_eq_true, if_true, ← hd, hlt,
        reduceCtorEq]
      field_simp
      ring
    have hqy : (p.update sqrt width height { x := some mx, y := some my, radius := 150 }).y
        = (p.y + p.vy) + ((p.y + p.vy) - my) / d * (3 * (150 - d) / 150) := by
      simp only [Particle.update, toNumber, ne_eq, not_false_eq_true, if_true, ← hd, hlt,
        reduceCtorEq]
      field_simp
      ring
    have hunit : (((p.x + p.vx) - mx) / d) ^ 2 + (((p.y + p.vy) - my) / d) ^ 2 = 1 := by
      field_simp
      rw [pow_two d, hsq]
      ring
    refine ⟨by rw [hx0, hy0]; exact hunit, by rw [hqx, hx0], by rw [hqy, hy0], ?_, by linarith,
      ?_, ?_⟩
    · rw [hqx, hqy]
      have h1 : (p.x + p.vx + (p.x + p.vx - mx) / d * (3 * (150 - d) / 150) - mx)
          = ((p.x + p.vx) - mx) / d * (d + 3 * (150 - d) / 150) := by
        field_simp
        ring
      have h2 : (p.y + p.vy + (p.y + p.vy - my) / d * (3 * (150 - d) / 150) - my)
          = ((p.y + p.vy) - my) / d * (d + 3 * (150 - d) / 150) := by
        field_simp
        ring
      rw [h1, h2, mul_pow, mul_pow, ← add_mul, hunit, one_mul]
    · simp [Particle.update, toNumber, hlt2]
    · simp [Particle.update, toNumber, hlt2]
  · intro hge
    have hnlt : ¬ sqrt ((mx - (p.x + p.vx)) * (mx - (p.x + p.vx)) +
        (my - (p.y + p.vy)) * (my - (p.y + p.vy))) < 150 := by
      rw [← hd]; exact not_lt.mpr hge
    simp [Particle.update, toNumber, hnlt]

/-! ### `initParticles` -/

/-- The push loop with enough fuel is `pushParticle` iterated `fuel` times. -/
theorem pushLoop_eq_iterate {α : Type} [LinearOrderedField α] (env : Env α) (n : Nat) :
    ∀ (fuel i : Nat) (s : Scene α), i + fuel = n →
      pushLoop env (n : ℤ) fuel i s = (pushParticle env)^[fuel] s := by
  intro fuel
  induction fuel with
  | zero => intro i s _; rfl
  | succ k ih =>
    intro i s h
    have hlt : (i : ℤ) < (n : ℤ) := by
      have : i < n := by omega
      exact_mod_cast this
    simp only [pushLoop, hlt, if_true, Function.iterate_succ, Function.comp_apply]
    exact ih (i + 1) (pushParticle env s) (by omega)

/-- Pushing `k` particles appends `k` freshly constructed objects and touches
neither the surface size nor the pointer. -/
theorem iterate_pushParticle {α : Type} [LinearOrderedField α] (env : Env α) :
    ∀ (k : Nat) (s : Scene α),
      ((pushParticle env)^[k] s).particles = s.particles ++ (List.range k).map
        (fun m => Particle.new env s.width s.height (s.draws + 7 * m) (s.allocated + m)) ∧
      ((pushParticle env)^[k] s).width = s.width ∧
      ((pushParticle env)^[k] s).height = s.height ∧
      ((pushParticle env)^[k] s).draws = s.draws + 7 * k ∧
      ((pushParticle env)^[k] s).allocated = s.allocated + k := by
  intro k
  induction k with
  | zero => intro s; simp
  | succ k ih =>
    intro s
    obtain ⟨h1, h2, h3, h4, h5⟩ := ih s
    rw [Function.iterate_succ_apply']
    refine ⟨?_, ?_, ?_, ?_, ?_⟩
    · simp only [pushParticle, h1, h2, h3, h4, h5, List.range_succ, List.map_append,
        List.map_cons, List.map_nil, List.append_assoc]
    · simp only [pushParticle, h2]
    · simp only [pushParticle, h3]
    · simp only [pushParticle, h4]; omega
    · simp only [pushParticle, h5]; omega

/-- What `initParticles` leaves in `particles`. -/
theorem initParticles_particles {α : Type} [LinearOrderedField α] [FloorRing α]
    (env : Env α) (s : Scene α) (hw : 0 ≤ env.innerWidth) :
    (initParticles env s).particles = (List.range ⌊env.innerWidth / 12⌋.toNat).map
      (fun m => Particle.new env s.width s.height (s.draws + 7 * m) (s.allocated + m)) := by
  have hfloor : 0 ≤ ⌊env.innerWidth / 12⌋ := Int.floor_nonneg.mpr (div_nonneg hw (by norm_num))
  have hcast : ((⌊env.innerWidth / 12⌋.toNat : Nat) : ℤ) = ⌊env.innerWidth / 12⌋ :=
    Int.toNat_of_nonneg hfloor
  unfold initParticles
  simp only
  conv_lhs => rw [← hcast]
  rw [Int.toNat_natCast,
    pushLoop_eq_iterate env _ _ 0 _ (by simp), (iterate_pushParticle env _ _).1]
  simp

/-- C3: for a viewport width `w ≥ 0` and any previous contents of `particles`
(whose objects, like every object constructed so far, have a serial number below
`allocated`), after `initParticles`, and after the resize listener, the collection
holds exactly `⌊w / 12⌋` particles, each one constructed during the call, none of
them an object of the previous collection. -/
theorem initParticles_rebuilds {α : Type} [LinearOrderedField α] [FloorRing α]
    (env : Env α) (s : Scene α) (hw : 0 ≤ env.innerWidth)
    (hold : ∀ p ∈ s.particles, p.oid < s.allocated) :
    (((initParticles env s).particles.length : ℤ) = ⌊env.innerWidth / 12⌋ ∧
      (∀ p ∈ (initParticles env s).particles, s.allocated ≤ p.oid ∧ p ∉ s.particles) ∧
      (initParticles env s).particles = (initParticles env { s with particles := [] }).particles) ∧
    (((onResize env s).particles.length : ℤ) = ⌊env.innerWidth / 12⌋ ∧
      (∀ p ∈ (onResize env s).particles, s.allocated ≤ p.oid ∧ p ∉ s.particles) ∧
      (onResize env s).particles = (onResize env { s with particles := [] }).particles) := by
  have hfloor : 0 ≤ ⌊env.innerWidth / 12⌋ := Int.floor_nonneg.mpr (div_nonneg hw (by norm_num))
  have key : ∀ t : Scene α, t.allocated = s.allocated →
      ((initParticles env t).particles.length : ℤ) = ⌊env.innerWidth / 12⌋ ∧
      (∀ p ∈ (initParticles env t).particles, s.allocated ≤ p.oid ∧ p ∉ s.particles) := by
    intro t ht
    rw [initParticles_particles env t hw]
    refine ⟨?_, ?_⟩
    · simp only [List.length_map, List.length_range]
      exact Int.toNat_of_nonneg hfloor
    · intro p hp
      obtain ⟨m, _, rfl⟩ := List.mem_map.mp hp
      have hoid : s.allocated ≤ (Particle.new env t.width t.height (t.draws + 7 * m)
          (t.allocated + m)).oid := by
        simp only [Particle.new, ht]; omega
      refine ⟨hoid, fun hmem => ?_⟩
      have := hold _ hmem
      omega
  refine ⟨⟨(key s rfl).1, (key s rfl).2, ?_⟩, ⟨(key (resize env s) rfl).1,
    (key (resize env s) rfl).2, ?_⟩⟩
  · rw [initParticles_particles env s hw, initParticles_particles env _ hw]
  · unfold onResize
    rw [initParticles_particles env _ hw, initParticles_particles env _ hw]
    rfl

/-! ### DOM glue: how the class operations act on a document -/

theorem getElem?_classListAdd (doc : Document) (n m : Nat) (cls : String) :
    (classListAdd doc n cls)[m]? =
      if n = m then doc[m]?.map (Element.addClass cls) else doc[m]? := by
  unfold classListAdd
  rw [List.getElem?_modify]
  by_cases h : n = m <;> cases doc[m]? <;> simp [h]

theorem getElem?_classListRemove (doc : Document) (n m : Nat) (cls : String) :
    (classListRemove doc n cls)[m]? =
      if n = m then doc[m]?.map (Element.removeClass cls) else doc[m]? := by
  unfold classListRemove
  rw [List.getElem?_modify]
  by_cases h : n = m <;> cases doc[m]? <;> simp [h]

theorem mem_addClass (cls c : String) (e : Element) :
    c ∈ (e.addClass cls).classList ↔ c = cls ∨ c ∈ e.classList := by
  unfold Element.addClass
  by_cases h : cls ∈ e.classList
  · simp only [h, if_true]
    constructor
    · intro hc; exact Or.inr hc
    · rintro (rfl | hc)
      · exact h
      · exact hc
  · simp only [h, if_false, List.mem_append, List.mem_singleton]
    tauto

theorem mem_removeClass (cls c : String) (e : Element) :
    c ∈ (e.removeClass cls).classList ↔ c ∈ e.classList ∧ c ≠ cls := by
  simp [Element.removeClass]

theorem hasClass_classListAdd (doc : Document) (n m : Nat) (cls c : String) :
    hasClass (classListAdd doc n cls) m c ↔
      (n = m ∧ m < doc.length ∧ c = cls) ∨ hasClass doc m c := by
  unfold hasClass
  rw [getElem?_classListAdd]
  by_cases h : n = m
  · subst h
    simp only [if_true, true_and]
    by_cases hl : n < doc.length
    · rw [List.getElem?_eq_getElem hl]
      simp only [Option.map_some', Option.some.injEq, hl, true_and]
      constructor
      · rintro ⟨e, rfl, hc⟩
        rcases (mem_addClass cls c _).mp hc with h1 | h1
        · exact Or.inl h1
        · exact Or.inr ⟨_, rfl, h1⟩
      · rintro (h1 | ⟨e, rfl, h1⟩)
        · exact ⟨_, rfl, (mem_addClass cls c _).mpr (Or.inl h1)⟩
        · exact ⟨_, rfl, (mem_addClass cls c _).mpr (Or.inr h1)⟩
    · rw [List.getElem?_eq_none (not_lt.mp hl)]
      simp [hl]
  · simp [h]

theorem hasClass_classListRemove (doc : Document) (n m : Nat) (cls c : String) :
    hasClass (classListRemove doc n cls) m c ↔
      hasClass doc m c ∧ ¬ (n = m ∧ c = cls) := by
  unfold hasClass
  rw [getElem?_classListRemove]
  by_cases h : n = m
  · subst h
    simp only [if_true, true_and]
    cases hd : doc[n]? with
    | none => simp
    | some e =>
      simp only [Option.map_some', Option.some.injEq]
      constructor
      · rintro ⟨e2, rfl, hc⟩
        have := (mem_removeClass cls c e).mp hc
        exact ⟨⟨e, rfl, this.1⟩, this.2⟩
      · rintro ⟨⟨e2, rfl, hc⟩, hne⟩
        exact ⟨_, rfl, (mem_removeClass cls c _).mpr ⟨hc, hne⟩⟩
  · simp [h]

theorem getAttribute_classListAdd (doc : Document) (n m : Nat) (cls name : String) :
    getAttribute (classListAdd doc n cls) m name = getAttribute doc m name := by
  unfold getAttribute
  rw [getElem?_classListAdd]
  by_cases h : n = m
  · simp only [h, if_true]
    cases doc[m]? with
    | none => rfl
    | some e =>
      simp only [Option.map_some', Option.some_bind, Element.getAttribute, Element.addClass]
      split_ifs <;> rfl
  · simp [h]

theorem getAttribute_classListRemove (doc : Document) (n m : Nat) (cls name : String) :
    getAttribute (classListRemove doc n cls) m name = getAttribute doc m name := by
  unfold getAttribute
  rw [getElem?_classListRemove]
  by_cases h : n = m
  · simp only [h, if_true]
    cases doc[m]? with
    | none => rfl
    | some e => rfl
  · simp [h]

theorem length_classListAdd (doc : Document) (n : Nat) (cls : String) :
    (classListAdd doc n cls).length = doc.length := by
  simp [classListAdd]

theorem length_classListRemove (doc : Document) (n : Nat) (cls : String) :
    (classListRemove doc n cls).length = doc.length := by
  simp [classListRemove]

/-- A quantity that no step changes is not changed by the whole loop. -/
theorem foldl_preserves {β γ : Type} (step : Document → β → Document) (f : Document → γ)
    (h : ∀ d b, f (step d b) = f d) (l : List β) (doc : Document) :
    f (l.foldl step doc) = f doc := by
  induction l generalizing doc with
  | nil => rfl
  | cons a l ih => rw [List.foldl_cons, ih, h]

theorem hasClass_foldl_remove (l : List Nat) (cls : String) (doc : Document) (m : Nat)
    (c : String) :
    hasClass (l.foldl (fun d b => classListRemove d b cls) doc) m c ↔
      hasClass doc m c ∧ ¬ (m ∈ l ∧ c = cls) := by
  induction l generalizing doc with
  | nil => simp
  | cons a l ih =>
    rw [List.foldl_cons, ih, hasClass_classListRemove, List.mem_cons]
    constructor
    · rintro ⟨⟨h1, h2⟩, h3⟩
      refine ⟨h1, ?_⟩
      rintro ⟨h4 | h4, h5⟩
      · exact h2 ⟨h4.symm, h5⟩
      · exact h3 ⟨h4, h5⟩
    · rintro ⟨h1, h2⟩
      exact ⟨⟨h1, fun h => h2 ⟨Or.inl h.1.symm, h.2⟩⟩, fun h => h2 ⟨Or.inr h.1, h.2⟩⟩

theorem getAttribute_filterCard (k : Option String) (doc : Document) (card m : Nat)
    (name : String) :
    getAttribute (filterCard k doc card) m name = getAttribute doc m name := by
  unfold filterCard
  split_ifs <;> rw [getAttribute_classListAdd, getAttribute_classListRemove]

theorem length_filterCard (k : Option String) (doc : Document) (card : Nat) :
    (filterCard k doc card).length = doc.length := by
  unfold filterCard
  split_ifs <;> rw [length_classListAdd, length_classListRemove]

theorem filterCard_self (k : Option String) (doc : Document) (a : Nat)
    (hlt : a < doc.length) :
    ((k = some "all" ∨ getAttribute doc a "data-category" = k) →
      shown (filterCard k doc a) a) ∧
    (¬ (k = some "all" ∨ getAttribute doc a "data-category" = k) →
      hidden (filterCard k doc a) a) := by
  unfold shown hidden filterCard
  constructor
  · intro hc
    simp [hc, hasClass_classListAdd, hasClass_classListRemove, length_classListRemove, hlt]
  · intro hc
    simp [hc, hasClass_classListAdd, hasClass_classListRemove, length_classListRemove, hlt]

theorem filterCard_other (k : Option String) (doc : Document) (a m : Nat) (c : String)
    (h : a ≠ m ∨ (c ≠ "show" ∧ c ≠ "hide")) :
    hasClass (filterCard k doc a) m c ↔ hasClass doc m c := by
  unfold filterCard
  rcases h with h | ⟨hs, hh⟩
  · split_ifs <;> simp [hasClass_classListAdd, hasClass_classListRemove, h]
  · split_ifs <;> simp [hasClass_classListAdd, hasClass_classListRemove, hs, hh]

/-- What the card loop of the filter listener leaves behind. -/
theorem filterCard_foldl (k : Option String) (cards : List Nat) (doc : Document) :
    (∀ m c, c ≠ "show" → c ≠ "hide" →
      (hasClass (cards.foldl (filterCard k) doc) m c ↔ hasClass doc m c)) ∧
    (∀ m ∈ cards, m < doc.length →
      ((k = some "all" ∨ getAttribute doc m "data-category" = k) →
        shown (cards.foldl (filterCard k) doc) m) ∧
      (¬ (k = some "all" ∨ getAttribute doc m "data-category" = k) →
        hidden (cards.foldl (filterCard k) doc) m)) := by
  induction cards using List.reverseRecOn with
  | nil => simp
  | append_singleton l a ih =>
    obtain ⟨ih1, ih2⟩ := ih
    have hattr : ∀ m name, getAttribute (l.foldl (filterCard k) doc) m name
        = getAttribute doc m name := fun m name =>
      foldl_preserves (filterCard k) (fun d => getAttribute d m name)
        (fun d b => getAttribute_filterCard k d b m name) l doc
    have hlen : (l.foldl (filterCard k) doc).length = doc.length :=
      foldl_preserves (filterCard k) List.length (fun d b => length_filterCard k d b) l doc
    rw [List.foldl_append, List.foldl_cons, List.foldl_nil]
    refine ⟨?_, ?_⟩
    · intro m c hs hh
      rw [← ih1 m c hs hh]
      exact filterCard_other k _ a m c (Or.inr ⟨hs, hh⟩)
    · intro m hm hlt
      by_cases hma : a = m
      · subst hma
        have := filterCard_self k (l.foldl (filterCard k) doc) a (by rw [hlen]; exact hlt)
        rw [hattr] at this
        exact this
      · have hml : m ∈ l := by
          rcases List.mem_append.mp hm with h | h
          · exact h
          · exact absurd (List.mem_singleton.mp h).symm hma
        unfold shown hidden
        rw [filterCard_other k _ a m _ (Or.inl hma), filterCard_other k _ a m _ (Or.inl hma)]
        exact ih2 m hml hlt

/-- C5: filter click.  After the listener of the clicked button `btn` has run, `btn`
is the only filter button carrying `active`; if its `data-filter` is `all` every
card is shown; otherwise a card is shown when its `data-category` equals the
`data-filter` of `btn`, and hidden when it does not. -/
theorem filterClick_spec (filterBtns flagshipCards : List Nat) (btn : Nat) (doc : Document)
    (hbtn : btn ∈ filterBtns)
    (hB : ∀ b ∈ filterBtns, b < doc.length)
    (hC : ∀ c ∈ flagshipCards, c < doc.length) :
    (hasClass (filterClick filterBtns flagshipCards btn doc) btn "active" ∧
      ∀ b ∈ filterBtns,
        hasClass (filterClick filterBtns flagshipCards btn doc) b "active" → b = btn) ∧
    (getAttribute doc btn "data-filter" = some "all" →
      ∀ c ∈ flagshipCards, shown (filterClick filterBtns flagshipCards btn doc) c) ∧
    (getAttribute doc btn "data-filter" ≠ some "all" →
      ∀ c ∈ flagshipCards,
        (getAttribute doc c "data-category" = getAttribute doc btn "data-filter" →
          shown (filterClick filterBtns flagshipCards btn doc) c) ∧
        (getAttribute doc c "data-category" ≠ getAttribute doc btn "data-filter" →
          hidden (filterClick filterBtns flagshipCards btn doc) c)) := by
  have hattr2 : ∀ m name,
      getAttribute (filterBtns.foldl (fun d b => classListRemove d b "active") doc) m name
        = getAttribute doc m name := fun m name =>
    foldl_preserves _ (fun d => getAttribute d m name)
      (fun d b => getAttribute_classListRemove d b m "active" name) filterBtns doc
  have hlen2 : (filterBtns.foldl (fun d b => classListRemove d b "active") doc).length
      = doc.length :=
    foldl_preserves _ List.length (fun d b => length_classListRemove d b "active")
      filterBtns doc
  have hk : getAttribute (classListAdd
      (filterBtns.foldl (fun d b => classListRemove d b "active") doc) btn "active")
      btn "data-filter" = getAttribute doc btn "data-filter" := by
    rw [getAttribute_classListAdd, hattr2]
  have hattr3 : ∀ m name, getAttribute (classListAdd
      (filterBtns.foldl (fun d b => classListRemove d b "active") doc) btn "active") m name
      = getAttribute doc m name := by
    intro m name
    rw [getAttribute_classListAdd, hattr2]
  have hlen3 : (classListAdd
      (filterBtns.foldl (fun d b => classListRemove d b "active") doc) btn "active").length
      = doc.length := by
    rw [length_classListAdd, hlen2]
  unfold filterClick
  simp only [hk]
  obtain ⟨h1, h2⟩ := filterCard_foldl (getAttribute doc btn "data-filter") flagshipCards
    (classListAdd (filterBtns.foldl (fun d b => classListRemove d b "active") doc)
      btn "active")
  refine ⟨?_, ?_, ?_⟩
  · constructor
    · rw [h1 btn "active" (by decide) (by decide), hasClass_classListAdd, hlen2]
      exact Or.inl ⟨rfl, hB btn hbtn, rfl⟩
    · intro b hb
      rw [h1 b "active" (by decide) (by decide), hasClass_classListAdd,
        hasClass_foldl_remove]
      rintro (⟨h, _, _⟩ | ⟨_, h⟩)
      · exact h.symm
      · exact absurd ⟨hb, rfl⟩ h
  · intro hall c hc
    have := (h2 c hc (by rw [hlen3]; exact hC c hc)).1
    rw [hattr3] at this
    exact this (Or.inl hall)
  · intro hall c hc
    have := h2 c hc (by rw [hlen3]; exact hC c hc)
    rw [hattr3] at this
    refine ⟨fun h => this.1 (Or.inr h), fun h => this.2 ?_⟩
    rintro (h' | h')
    · exact hall h'
    · exact h h'

/-! ### Navigation highlight -/

theorem lt_length_of_getAttribute (doc : Document) (n : Nat) (name v : String)
    (h : getAttribute doc n name = some v) : n < doc.length := by
  by_contra hn
  unfold getAttribute at h
  rw [List.getElem?_eq_none (not_lt.mp hn)] at h
  simp at h

theorem getAttribute_highlightLink (cp : String) (doc : Document) (a m : Nat)
    (name : String) :
    getAttribute (highlightLink cp doc a) m name = getAttribute doc m name := by
  unfold highlightLink
  simp only
  split_ifs
  · rw [getAttribute_classListAdd]
  · rw [getAttribute_classListRemove]

theorem highlightLink_self (cp : String) (doc : Document) (a : Nat) :
    hasClass (highlightLink cp doc a) a "active" ↔
      (getAttribute doc a "href" = some cp ∨
        (cp = "" ∧ getAttribute doc a "href" = some "index.html")) := by
  unfold highlightLink
  simp only
  split_ifs with hc
  · have hlt : a < doc.length := by
      rcases hc with h | h | h
      · exact lt_length_of_getAttribute doc a "href" _ h
      · exact lt_length_of_getAttribute doc a "href" _ h.2
      · exact lt_length_of_getAttribute doc a "href" _ h.2
    rw [hasClass_classListAdd]
    constructor
    · intro _
      rcases hc with h | h | h
      · exact Or.inl h
      · exact Or.inr h
      · left; rw [h.2, h.1]
    · intro _
      exact Or.inl ⟨rfl, hlt, rfl⟩
  · rw [hasClass_classListRemove]
    constructor
    · rintro ⟨_, h⟩
      exact absurd ⟨rfl, rfl⟩ h
    · intro h
      exfalso
      apply hc
      rcases h with h | h
      · exact Or.inl h
      · exact Or.inr (Or.inl h)

theorem highlightLink_other (cp : String) (doc : Document) (a m : Nat) (c : String)
    (h : a ≠ m) :
    hasClass (highlightLink cp doc a) m c ↔ hasClass doc m c := by
  unfold highlightLink
  simp only
  split_ifs <;> simp [hasClass_classListAdd, hasClass_classListRemove, h]

/-- C7: after the load handler, a navigation link is active if and only if its `href`
equals `currentPage` (the last `/`-separated segment of the path), or `currentPage`
is empty and its `href` is `index.html`; the state of the link before the handler
plays no role. -/
theorem navHighlight_spec (pathname : String) (navLinks : List Nat) (doc : Document)
    (link : Nat) (hlink : link ∈ navLinks) :
    hasClass (navHighlight pathname navLinks doc) link "active" ↔
      (getAttribute doc link "href" = some (currentPage pathname) ∨
        (currentPage pathname = "" ∧ getAttribute doc link "href" = some "index.html")) := by
  unfold navHighlight
  induction navLinks using List.reverseRecOn with
  | nil => simp at hlink
  | append_singleton l a ih =>
    have hattr : ∀ m name,
        getAttribute (l.foldl (highlightLink (currentPage pathname)) doc) m name
          = getAttribute doc m name := fun m name =>
      foldl_preserves _ (fun d => getAttribute d m name)
        (fun d b => getAttribute_highlightLink _ d b m name) l doc
    rw [List.foldl_append, List.foldl_cons, List.foldl_nil]
    by_cases hma : a = link
    · subst hma
      rw [highlightLink_self, hattr]
    · rw [highlightLink_other _ _ a link _ hma]
      apply ih
      rcases List.mem_append.mp hlink with h | h
      · exact h
      · exact absurd (List.mem_singleton.mp h).symm hma

/-! ### Tabs -/

theorem getElementById_modify (f : Element → Element) (hf : ∀ e, (f e).id = e.id)
    (key : String) : ∀ (doc : Document) (n : Nat),
    getElementById (List.modify f n doc) key = getElementById doc key := by
  intro doc
  induction doc with
  | nil => intro n; cases n <;> rfl
  | cons e rest ih =>
    intro n
    cases n with
    | zero => simp only [List.modify_zero_cons, getElementById, hf]
    | succ n =>
      rw [List.modify_succ_cons]
      simp only [getElementById]
      rw [ih]

theorem getElementById_classListAdd (doc : Document) (n : Nat) (cls key : String) :
    getElementById (classListAdd doc n cls) key = getElementById doc key :=
  getElementById_modify (Element.addClass cls)
    (fun e => by unfold Element.addClass; split_ifs <;> rfl) key doc n

theorem getElementById_classListRemove (doc : Document) (n : Nat) (cls key : String) :
    getElementById (classListRemove doc n cls) key = getElementById doc key :=
  getElementById_modify (Element.removeClass cls) (fun _ => rfl) key doc n

theorem idOf_of_getElementById (key : String) : ∀ (doc : Document) (n : Nat),
    getElementById doc key = some n → idOf doc n = some key ∧ n < doc.length := by
  intro doc
  induction doc with
  | nil => intro n h; simp [getElementById] at h
  | cons e rest ih =>
    intro n h
    unfold getElementById at h
    split_ifs at h with he
    · cases h
      simp [idOf, he]
    · cases hr : getElementById rest key with
      | none => rw [hr] at h; simp at h
      | some m =>
        rw [hr] at h
        simp only [Option.map_some', Option.some.injEq] at h
        subst h
        have := ih m hr
        simpa [idOf] using this

theorem getElementById_eq_none (key : String) : ∀ (doc : Document),
    getElementById doc key = none → ∀ n, idOf doc n ≠ some key := by
  intro doc
  induction doc with
  | nil => intro _ n; simp [idOf]
  | cons e rest ih =>
    intro h n
    unfold getElementById at h
    split_ifs at h with he
    have hr : getElementById rest key = none := by
      cases hr : getElementById rest key with
      | none => rfl
      | some m => rw [hr] at h; simp at h
    cases n with
    | zero => simpa [idOf] using he
    | succ n => simpa [idOf] using ih hr n

/-- The document just before the `getElementById` call of the tab listener. -/
theorem tabClick_before_lookup (tabBtns tabContents : List Nat) (btn : Nat) (doc : Document)
    (hbtn : btn < doc.length) (d3 : Document)
    (hd3 : d3 = classListAdd (tabContents.foldl (fun d c => classListRemove d c "active")
      (tabBtns.foldl (fun d b => classListRemove d b "active") doc)) btn "active") :
    d3.length = doc.length ∧
    getAttribute d3 btn "data-tab" = getAttribute doc btn "data-tab" ∧
    (∀ key, getElementById d3 key = getElementById doc key) ∧
    (∀ m, hasClass d3 m "active" ↔
      m = btn ∨ (hasClass doc m "active" ∧ m ∉ tabBtns ∧ m ∉ tabContents)) := by
  subst hd3
  have hlen : (tabContents.foldl (fun d c => classListRemove d c "active")
      (tabBtns.foldl (fun d b => classListRemove d b "active") doc)).length = doc.length := by
    rw [foldl_preserves _ List.length (fun d b => length_classListRemove d b "active"),
      foldl_preserves _ List.length (fun d b => length_classListRemove d b "active")]
  refine ⟨by rw [length_classListAdd, hlen], ?_, ?_, ?_⟩
  · rw [getAttribute_classListAdd,
      foldl_preserves _ (fun d => getAttribute d btn "data-tab")
        (fun d b => getAttribute_classListRemove d b btn "active" "data-tab"),
      foldl_preserves _ (fun d => getAttribute d btn "data-tab")
        (fun d b => getAttribute_classListRemove d b btn "active" "data-tab")]
  · intro key
    rw [getElementById_classListAdd,
      foldl_preserves _ (fun d => getElementById d key)
        (fun d b => getElementById_classListRemove d b "active" key),
      foldl_preserves _ (fun d => getElementById d key)
        (fun d b => getElementById_classListRemove d b "active" key)]
  · intro m
    rw [hasClass_classListAdd, hlen, hasClass_foldl_remove, hasClass_foldl_remove]
    constructor
    · rintro (⟨h, _, _⟩ | ⟨⟨h1, h2⟩, h3⟩)
      · exact Or.inl h.symm
      · exact Or.inr ⟨h1, fun h => h2 ⟨h, rfl⟩, fun h => h3 ⟨h, rfl⟩⟩
    · rintro (h | ⟨h1, h2, h3⟩)
      · subst h
        exact Or.inl ⟨rfl, hbtn, rfl⟩
      · exact Or.inr ⟨⟨h1, fun h => h2 h.1⟩, fun h => h3 h.1⟩

/-- Refutation of C6 as stated: on `tabDoc` (tab buttons at positions 0 and 1, panels
with the distinct ids `p1`, `p2` at positions 2 and 3) a click on the second button,
whose target key is the id of the first button, leaves the first button active too. -/
theorem tabClick_clicked_not_only_active :
    (idOf tabDoc 2 ≠ idOf tabDoc 3) ∧
    getAttribute tabDoc 1 "data-tab" = some "intro" ∧
    ¬ (∀ b ∈ [0, 1], (hasClass (tabClick [0, 1] [2, 3] 1 tabDoc) b "active" ↔ b = 1)) := by
  refine ⟨by decide, by decide, ?_⟩
  intro h
  have h0 : hasClass (tabClick [0, 1] [2, 3] 1 tabDoc) 0 "active" := by decide
  have := (h 0 (by decide)).mp h0
  exact absurd this (by decide)

/-- C6, amended: tab click on a page where no element is both a tab button and a
panel, the panels have distinct ids, and every element whose id is the target key
`t` of the clicked button is a panel.  After the listener the clicked button is the
only active tab button, and a panel is active exactly when its id is `t`; if no
panel has id `t`, no panel is active. -/
theorem tabClick_spec (tabBtns tabContents : List Nat) (btn : Nat) (doc : Document)
    (t : String)
    (hbtn : btn ∈ tabBtns)
    (hB : ∀ b ∈ tabBtns, b < doc.length)
    (ht : (getAttribute doc btn "data-tab").getD "null" = t)
    (hdisj : ∀ b ∈ tabBtns, b ∉ tabContents)
    (hdist : ∀ c1 ∈ tabContents, ∀ c2 ∈ tabContents, ∀ k,
      idOf doc c1 = some k → idOf doc c2 = some k → c1 = c2)
    (honly : ∀ n, idOf doc n = some t → n ∈ tabContents) :
    (hasClass (tabClick tabBtns tabContents btn doc) btn "active" ∧
      ∀ b ∈ tabBtns, hasClass (tabClick tabBtns tabContents btn doc) b "active" → b = btn) ∧
    (∀ c ∈ tabContents,
      (hasClass (tabClick tabBtns tabContents btn doc) c "active" ↔ idOf doc c = some t)) ∧
    ((∀ c ∈ tabContents, idOf doc c ≠ some t) →
      ∀ c ∈ tabContents, ¬ hasClass (tabClick tabBtns tabContents btn doc) c "active") := by
  obtain ⟨hlen, hattr, hget, hact⟩ := tabClick_before_lookup tabBtns tabContents btn doc
    (hB btn hbtn) _ rfl
  have hpanels : ∀ c ∈ tabContents,
      (hasClass (tabClick tabBtns tabContents btn doc) c "active" ↔ idOf doc c = some t) := by
    intro c hc
    unfold tabClick
    simp only [hattr, ht, hget]
    cases hg : getElementById doc t with
    | none =>
      simp only
      rw [hact]
      constructor
      · rintro (h | ⟨_, _, h⟩)
        · exact absurd hc (h ▸ hdisj btn hbtn)
        · exact absurd hc h
      · intro h
        exact absurd h (getElementById_eq_none t doc hg c)
    | some e =>
      simp only
      obtain ⟨he, helt⟩ := idOf_of_getElementById t doc e hg
      have hec : e ∈ tabContents := honly e he
      rw [hasClass_classListAdd, hact]
      constructor
      · rintro (⟨h, _, _⟩ | h | ⟨_, _, h⟩)
        · rw [← h]; exact he
        · exact absurd hc (h ▸ hdisj btn hbtn)
        · exact absurd hc h
      · intro h
        have hce : e = c := hdist e hec c hc t he h
        exact Or.inl ⟨hce, by rw [hlen, ← hce]; exact helt, rfl⟩
  have hbtns : hasClass (tabClick tabBtns tabContents btn doc) btn "active" ∧
      ∀ b ∈ tabBtns, hasClass (tabClick tabBtns tabContents btn doc) b "active" → b = btn := by
    unfold tabClick
    simp only [hattr, ht, hget]
    cases hg : getElementById doc t with
    | none =>
      simp only
      refine ⟨(hact btn).mpr (Or.inl rfl), ?_⟩
      intro b hb
      rw [hact]
      rintro (h | ⟨_, h, _⟩)
      · exact h
      · exact absurd hb h
    | some e =>
      simp only
      obtain ⟨he, _⟩ := idOf_of_getElementById t doc e hg
      have hec : e ∈ tabContents := honly e he
      refine ⟨(hasClass_classListAdd _ _ _ _ _).mpr (Or.inr ((hact btn).mpr (Or.inl rfl))), ?_⟩
      intro b hb
      rw [hasClass_classListAdd, hact]
      rintro (⟨h, _, _⟩ | h | ⟨_, h, _⟩)
      · exact absurd hec (h ▸ hdisj b hb)
      · exact h
      · exact absurd hb h
  refine ⟨hbtns, hpanels, ?_⟩
  intro hnone c hc h
  exact hnone c hc ((hpanels c hc).mp h)

/-! ### Instances on the sample pages and the sample particle field -/

/-- Witness of C3: a 30 pixel wide viewport and a collection of two particles. -/
theorem initParticles_rebuilds_witness :
    ((initParticles sampleEnv sampleScene).particles.length : ℤ) = ⌊sampleEnv.innerWidth / 12⌋ ∧
    ∀ p ∈ (initParticles sampleEnv sampleScene).particles,
      sampleScene.allocated ≤ p.oid ∧ p ∉ sampleScene.particles :=
  have h := (initParticles_rebuilds sampleEnv sampleScene (by norm_num [sampleEnv])
    (by simp [sampleScene, sampleParticle, restingParticle])).1
  ⟨h.1, h.2.1⟩

/-- Witness of C5: buttons `all`, `electronics`, `books`, cards tagged `electronics`,
`books`, `electronics`, click on `electronics`: the two electronics cards are shown,
the books card is hidden, only the clicked button is active. -/
theorem filterClick_spec_witness :
    shown (filterClick [0, 1, 2] [3, 4, 5] 1 filterPage) 3 ∧
    hidden (filterClick [0, 1, 2] [3, 4, 5] 1 filterPage) 4 ∧
    shown (filterClick [0, 1, 2] [3, 4, 5] 1 filterPage) 5 ∧
    hasClass (filterClick [0, 1, 2] [3, 4, 5] 1 filterPage) 1 "active" ∧
    ¬ hasClass (filterClick [0, 1, 2] [3, 4, 5] 1 filterPage) 0 "active" ∧
    ¬ hasClass (filterClick [0, 1, 2] [3, 4, 5] 1 filterPage) 2 "active" :=
  have h := filterClick_spec [0, 1, 2] [3, 4, 5] 1 filterPage (by decide) (by decide)
    (by decide)
  have hk : getAttribute filterPage 1 "data-filter" ≠ some "all" := by decide
  ⟨(h.2.2 hk 3 (by decide)).1 (by decide),
   (h.2.2 hk 4 (by decide)).2 (by decide),
   (h.2.2 hk 5 (by decide)).1 (by decide),
   h.1.1,
   fun h0 => absurd (h.1.2 0 (by decide) h0) (by decide),
   fun h2 => absurd (h.1.2 2 (by decide) h2) (by decide)⟩

/-- Witness of C6 amended: tabs `t1`, `t2` mapped to panels `p1`, `p2`, click on `t2`:
`p2` active, `p1` inactive, `t2` active, `t1` inactive. -/
theorem tabClick_spec_witness :
    hasClass (tabClick [0, 1] [2, 3] 1 tabsPage) 3 "active" ∧
    ¬ hasClass (tabClick [0, 1] [2, 3] 1 tabsPage) 2 "active" ∧
    hasClass (tabClick [0, 1] [2, 3] 1 tabsPage) 1 "active" ∧
    ¬ hasClass (tabClick [0, 1] [2, 3] 1 tabsPage) 0 "active" :=
  have h := tabClick_spec [0, 1] [2, 3] 1 tabsPage "p2" (by decide) (by decide) (by decide)
    (by decide)
    (by
      intro c1 h1 c2 h2 k e1 e2
      simp only [List.mem_cons, List.mem_singleton, List.not_mem_nil, or_false] at h1 h2
      rcases h1 with rfl | rfl <;> rcases h2 with rfl | rfl
      · rfl
      · simp [idOf, tabsPage] at e1 e2
        rw [← e1] at e2
        exact absurd e2 (by decide)
      · simp [idOf, tabsPage] at e1 e2
        rw [← e1] at e2
        exact absurd e2 (by decide)
      · rfl)
    (by
      intro n hn
      rcases n with _ | _ | _ | _ | n
      · exact absurd hn (by decide)
      · exact absurd hn (by decide)
      · exact absurd hn (by decide)
      · decide
      · simp [idOf, tabsPage] at hn)
  ⟨(h.2.1 3 (by decide)).mpr (by decide),
   fun h2 => absurd ((h.2.1 2 (by decide)).mp h2) (by decide),
   h.1.1,
   fun h0 => absurd (h.1.2 0 (by decide) h0) (by decide)⟩

/-- Witness of C7: links to `index.html`, `programs.html`, `contact.html`.  On the
path `/programs.html` only the second link is active (the third, active in the
markup, is not); on the path `/` the first one is. -/
theorem navHighlight_spec_witness :
    currentPage "/programs.html" = "programs.html" ∧ currentPage "/" = "" ∧
    hasClass (navHighlight "/programs.html" [0, 1, 2] navPage) 1 "active" ∧
    ¬ hasClass (navHighlight "/programs.html" [0, 1, 2] navPage) 0 "active" ∧
    ¬ hasClass (navHighlight "/programs.html" [0, 1, 2] navPage) 2 "active" ∧
    hasClass (navHighlight "/" [0, 1, 2] navPage) 0 "active" ∧
    ¬ hasClass (navHighlight "/" [0, 1, 2] navPage) 1 "active" ∧
    ¬ hasClass (navHighlight "/" [0, 1, 2] navPage) 2 "active" :=
  ⟨by decide, by decide,
   (navHighlight_spec "/programs.html" [0, 1, 2] navPage 1 (by decide)).mpr (by decide),
   fun h => absurd
     ((navHighlight_spec "/programs.html" [0, 1, 2] navPage 0 (by decide)).mp h) (by decide),
   fun h => absurd
     ((navHighlight_spec "/programs.html" [0, 1, 2] navPage 2 (by decide)).mp h) (by decide),
   (navHighlight_spec "/" [0, 1, 2] navPage 0 (by decide)).mpr (by decide),
   fun h => absurd
     ((navHighlight_spec "/" [0, 1, 2] navPage 1 (by decide)).mp h) (by decide),
   fun h => absurd
     ((navHighlight_spec "/" [0, 1, 2] navPage 2 (by decide)).mp h) (by decide)⟩

/-! ### `animate` -/

theorem connect_eq {α : Type} [LinearOrderedField α] (sqrt : α → α)
    (P : List (Particle α)) (k j : Nat) (pk pj : Particle α)
    (hk : P[k]? = some pk) (hj : P[j]? = some pj) :
    connect sqrt P k j =
      if euclid sqrt pk.x pk.y pj.x pj.y < 120 then
        [DrawCmd.line k j (strokeAlpha (euclid sqrt pk.x pk.y pj.x pj.y)) pk.x pk.y pj.x pj.y]
      else [] := by
  unfold connect
  rw [hk, hj]
  rfl

theorem connect_mem {α : Type} [LinearOrderedField α] (sqrt : α → α)
    (P : List (Particle α)) (k j : Nat) (cmd : DrawCmd α) (h : cmd ∈ connect sqrt P k j) :
    ∃ a x1 y1 x2 y2, cmd = DrawCmd.line k j a x1 y1 x2 y2 := by
  unfold connect at h
  split at h
  · simp only at h
    split_ifs at h
    · exact ⟨_, _, _, _, _, List.mem_singleton.mp h⟩
    · simp at h
  · simp at h

theorem countP_connect_other {α : Type} [LinearOrderedField α] (sqrt : α → α)
    (P : List (Particle α)) (k j a b : Nat) (hne : ¬ (k = a ∧ j = b)) (hkj : k ≤ j)
    (hab : a ≤ b) :
    List.countP (DrawCmd.isLineBetween a b) (connect sqrt P k j) = 0 := by
  rw [List.countP_eq_zero]
  intro cmd hmem
  obtain ⟨al, x1, y1, x2, y2, rfl⟩ := connect_mem sqrt P k j cmd hmem
  simp only [DrawCmd.isLineBetween, Bool.or_eq_true, Bool.and_eq_true, beq_iff_eq, not_or,
    not_and]
  refine ⟨fun h1 h2 => hne ⟨h1, h2⟩, fun h1 h2 => hne ⟨by omega, by omega⟩⟩

theorem countP_connect_self {α : Type} [LinearOrderedField α] (sqrt : α → α)
    (P : List (Particle α)) (k j : Nat) (pk pj : Particle α)
    (hk : P[k]? = some pk) (hj : P[j]? = some pj) :
    List.countP (DrawCmd.isLineBetween k j) (connect sqrt P k j) =
      if euclid sqrt pk.x pk.y pj.x pj.y < 120 then 1 else 0 := by
  rw [connect_eq sqrt P k j pk pj hk hj]
  split_ifs <;> simp [DrawCmd.isLineBetween]

/-- How many segments for the pair `a ≤ b` the inner loop of `animate` strokes when
it runs over the indices in `L`. -/
theorem countP_flatMap_connect {α : Type} [LinearOrderedField α] (sqrt : α → α)
    (P : List (Particle α)) (k a b : Nat) (pk pb : Particle α) (hab : a ≤ b)
    (hk : P[k]? = some pk) (hb : P[b]? = some pb) :
    ∀ L : List Nat, (∀ j ∈ L, k ≤ j) → L.Nodup →
      List.countP (DrawCmd.isLineBetween a b) (L.flatMap (connect sqrt P k)) =
        if k = a ∧ b ∈ L ∧ euclid sqrt pk.x pk.y pb.x pb.y < 120 then 1 else 0 := by
  intro L
  induction L with
  | nil => intro _ _; simp
  | cons j L ih =>
    intro hge hnd
    rw [List.flatMap_cons, List.countP_append,
      ih (fun x hx => hge x (List.mem_cons_of_mem _ hx)) (List.nodup_cons.mp hnd).2]
    by_cases hkj : k = a ∧ j = b
    · obtain ⟨rfl, rfl⟩ := hkj
      rw [countP_connect_self sqrt P k j pk pb hk hb]
      have hnot : j ∉ L := (List.nodup_cons.mp hnd).1
      simp [hnot]
    · rw [countP_connect_other sqrt P k j a b hkj (hge j (List.mem_cons_self _ _)) hab]
      by_cases hka : k = a
      · have hjb : ¬ b = j := fun h => hkj ⟨hka, h.symm⟩
        simp [hka, hjb]
      · simp [hka]

/-- Invariant of the outer loop of `animate` after `k` iterations: the first `k`
particles are updated, the others are as on entry; and the number of segments
stroked so far for a pair `a ≤ b`. -/
theorem animate_loop {α : Type} [LinearOrderedField α] (sqrt : α → α) (width height : α)
    (mouse : Mouse α) (ps : List (Particle α)) (init : List (DrawCmd α)) :
    ∀ k, k ≤ ps.length →
      (((List.range k).foldl (animateStep sqrt width height mouse) (ps, init)).1.length
        = ps.length) ∧
      (∀ m, ((List.range k).foldl (animateStep sqrt width height mouse) (ps, init)).1[m]? =
        if m < k then ps[m]?.map (Particle.update sqrt width height mouse) else ps[m]?) ∧
      (∀ a b p q, a ≤ b → ps[a]? = some p → ps[b]? = some q →
        List.countP (DrawCmd.isLineBetween a b)
          ((List.range k).foldl (animateStep sqrt width height mouse) (ps, init)).2 =
        List.countP (DrawCmd.isLineBetween a b) init +
          if a < k ∧ euclid sqrt (p.update sqrt width height mouse).x
              (p.update sqrt width height mouse).y
              (if a = b then p.update sqrt width height mouse else q).x
              (if a = b then p.update sqrt width height mouse else q).y < 120
          then 1 else 0) := by
  intro k
  induction k with
  | zero => intro _; simp
  | succ k ih =>
    intro hk
    obtain ⟨ihlen, ihget, ihcount⟩ := ih (by omega)
    rw [List.range_succ, List.foldl_append, List.foldl_cons, List.foldl_nil]
    generalize (List.range k).foldl (animateStep sqrt width height mouse) (ps, init) = acc
      at ihlen ihget ihcount
    have hget : ∀ m, (List.modify (Particle.update sqrt width height mouse) k acc.1)[m]? =
        if m < k + 1 then ps[m]?.map (Particle.update sqrt width height mouse)
        else ps[m]? := by
      intro m
      rw [List.getElem?_modify, ihget]
      by_cases h1 : m < k
      · have h2 : ¬ k = m := by omega
        have h3 : m < k + 1 := by omega
        simp only [h1, h2, h3, if_true, if_false]
        cases ps[m]? <;> simp
      · by_cases h2 : k = m
        · subst h2
          simp only [h1, if_true, if_false, Nat.lt_succ_self]
          cases ps[k]? <;> simp
        · have h3 : ¬ m < k + 1 := by omega
          simp only [h1, h2, h3, if_false]
          cases ps[m]? <;> simp
    refine ⟨?_, hget, ?_⟩
    · simp only [animateStep, List.length_modify]
      exact ihlen
    · intro a b p q hab hp hq
      have hblt : b < ps.length := by
        by_contra hcon
        rw [List.getElem?_eq_none (not_lt.mp hcon)] at hq
        exact Option.noConfusion hq
      obtain ⟨pk, hpk⟩ : ∃ pk, ps[k]? = some pk :=
        ⟨ps[k], List.getElem?_eq_getElem (by omega)⟩
      have hPk : (List.modify (Particle.update sqrt width height mouse) k acc.1)[k]? =
          some (pk.update sqrt width height mouse) := by
        rw [hget, hpk]; simp
      have hdrawn : List.countP (DrawCmd.isLineBetween a b)
          (match (List.modify (Particle.update sqrt width height mouse) k acc.1)[k]? with
            | some p => [p.draw]
            | none => []) = 0 := by
        rw [hPk]
        simp [Particle.draw, DrawCmd.isLineBetween]
      simp only [animateStep, List.countP_append, hdrawn, List.length_modify, ihlen,
        ihcount a b p q hab hp hq, add_zero]
      rw [add_assoc]
      congr 1
      by_cases hak : k = a
      · subst hak
        have hPb : (List.modify (Particle.update sqrt width height mouse) k acc.1)[b]? =
            some (if k = b then p.update sqrt width height mouse else q) := by
          rw [hget, hq]
          by_cases hkb : k = b
          · subst hkb
            have : q = p := Option.some.inj (hq.symm.trans hp)
            simp [this]
          · have : ¬ b < k + 1 := by omega
            simp [this, hkb]
        have hpk2 : pk = p := Option.some.inj (hpk.symm.trans hp)
        subst hpk2
        rw [countP_flatMap_connect sqrt _ k k b _ _ hab hPk hPb _
          (fun j hj => (List.mem_range'_1.mp hj).1) (List.nodup_range' _ _)]
        have hmem : b ∈ List.range' k (ps.length - k) :=
          List.mem_range'_1.mpr ⟨hab, by omega⟩
        simp [hmem]
      · have hzero : List.countP (DrawCmd.isLineBetween a b)
            ((List.range' k (ps.length - k)).flatMap
              (connect sqrt (List.modify (Particle.update sqrt width height mouse) k acc.1) k))
            = 0 := by
          rw [List.countP_eq_zero]
          intro cmd hmem
          obtain ⟨j, hj, hcmd⟩ := List.mem_flatMap.mp hmem
          have := countP_connect_other sqrt
            (List.modify (Particle.update sqrt width height mouse) k acc.1) k j a b
            (fun h => hak h.1) (List.mem_range'_1.mp hj).1 hab
          exact List.countP_eq_zero.mp this cmd hcmd
        rw [hzero]
        have hiff : (a < k + 1) ↔ (a < k) := by omega
        simp [hiff]

/-- One frame: every particle is updated once, and the number of segments stroked
for a pair `a ≤ b` is decided by the updated `a` and the `b` found in the array at
that moment. -/
theorem animate_frame {α : Type} [LinearOrderedField α] (sqrt : α → α) (s : Scene α) :
    (animate sqrt s).1.particles =
      s.particles.map (Particle.update sqrt s.width s.height s.mouse) ∧
    (∀ a b p q, a ≤ b → s.particles[a]? = some p → s.particles[b]? = some q →
      List.countP (DrawCmd.isLineBetween a b) (animate sqrt s).2 =
        if euclid sqrt (p.update sqrt s.width s.height s.mouse).x
            (p.update sqrt s.width s.height s.mouse).y
            (if a = b then p.update sqrt s.width s.height s.mouse else q).x
            (if a = b then p.update sqrt s.width s.height s.mouse else q).y < 120
        then 1 else 0) := by
  obtain ⟨_, hget, hcount⟩ := animate_loop sqrt s.width s.height s.mouse s.particles
    [DrawCmd.clearRect 0 0 s.width s.height] s.particles.length (le_refl _)
  refine ⟨?_, ?_⟩
  · apply List.ext_getElem?
    intro m
    simp only [animate]
    rw [hget, List.getElem?_map]
    by_cases hm : m < s.particles.length
    · simp [hm]
    · rw [List.getElem?_eq_none (not_lt.mp hm)]
      simp
  · intro a b p q hab hp hq
    have halt : a < s.particles.length := by
      by_contra hcon
      rw [List.getElem?_eq_none (not_lt.mp hcon)] at hp
      exact Option.noConfusion hp
    simp only [animate]
    rw [hcount a b p q hab hp hq]
    simp [DrawCmd.isLineBetween, halt]

/-- Refutation of C10 as stated: in `lagScene` the two particles are drawn, after the
frame's updates, at (0, 0) and (120.5, 0), at distance 120.5, yet the frame strokes
a segment between them. -/
theorem animate_line_for_far_pair :
    (animate Rat.sqrt lagScene).1.particles.map (fun p => (p.x, p.y)) =
      [(0, 0), (241 / 2, 0)] ∧
    ¬ (euclid Rat.sqrt 0 0 (241 / 2) 0 < 120) ∧
    List.countP (DrawCmd.isLineBetween 0 1) (animate Rat.sqrt lagScene).2 = 1 := by
  refine ⟨?_, ?_, ?_⟩
  · rw [(animate_frame Rat.sqrt lagScene).1]
    simp [lagScene, Particle.update, Mouse.init]
    norm_num
  · have h : euclid Rat.sqrt 0 0 (241 / 2) 0 = 241 / 2 := by
      unfold euclid
      rw [show ((0 : ℚ) - 241 / 2) * (0 - 241 / 2) + (0 - 0) * (0 - 0)
        = (241 / 2) * (241 / 2) by norm_num, Rat.sqrt_eq]
      norm_num
    rw [h]
    norm_num
  · rw [(animate_frame Rat.sqrt lagScene).2 0 1 _ _ (by norm_num) rfl rfl]
    have h : euclid Rat.sqrt 0 0 (239 / 2) 0 = 239 / 2 := by
      unfold euclid
      rw [show ((0 : ℚ) - 239 / 2) * (0 - 239 / 2) + (0 - 0) * (0 - 0)
        = (239 / 2) * (239 / 2) by norm_num, Rat.sqrt_eq]
      norm_num
    simp [lagScene, Particle.update, Mouse.init, h]
    norm_num

/-- C10, amended: in one call of `animate`, for indices `i ≤ j` of the particle list,
exactly one segment is stroked for the pair if the distance between particle `i` as
updated in this frame and particle `j` as it stands when `i` is processed (for
`j > i` not yet updated in this frame, for `j = i` the updated particle itself) is
below 120, and none otherwise.  With the pointer present, the integrated position
of particle `i` is assumed not to coincide with it. -/
theorem animate_lines {α : Type} [LinearOrderedField α] (sqrt : α → α) (s : Scene α)
    (i j : Nat) (p q : Particle α) (hij : i ≤ j)
    (hp : s.particles[i]? = some p) (hq : s.particles[j]? = some q)
    (_hfin : s.mouse.x ≠ none →
      euclid sqrt (toNumber s.mouse.x) (toNumber s.mouse.y) (p.x + p.vx) (p.y + p.vy) ≠ 0) :
    List.countP (DrawCmd.isLineBetween i j) (animate sqrt s).2 =
      if euclid sqrt (p.update sqrt s.width s.height s.mouse).x
          (p.update sqrt s.width s.height s.mouse).y
          (if i = j then p.update sqrt s.width s.height s.mouse else q).x
          (if i = j then p.update sqrt s.width s.height s.mouse else q).y < 120
      then 1 else 0 :=
  (animate_frame sqrt s).2 i j p q hij hp hq

/-- Witness of C10 amended: the pair (0, 1) of `farPointerScene`, whose first
particle is at distance 200 from the pointer; exactly one segment is stroked. -/
theorem animate_lines_witness :
    List.countP (DrawCmd.isLineBetween 0 1) (animate Rat.sqrt farPointerScene).2 = 1 := by
  have h200 : Rat.sqrt 40000 = 200 := by
    rw [show (40000 : ℚ) = 200 * 200 by norm_num, Rat.sqrt_eq]; norm_num
  have h239 : Rat.sqrt (57121 / 4) = 239 / 2 := by
    rw [show (57121 / 4 : ℚ) = (239 / 2) * (239 / 2) by norm_num, Rat.sqrt_eq]; norm_num
  rw [animate_lines Rat.sqrt farPointerScene 0 1 _ _ (by norm_num) rfl rfl
    (by
      intro _
      norm_num [farPointerScene, lagScene, euclid, toNumber, h200])]
  norm_num [farPointerScene, lagScene, euclid, toNumber, Particle.update, h200, h239]

/-! ### The serial numbers stay below the allocation counter

That every particle of the collection has a serial number below `allocated` holds in
every state the script reaches: it holds when `particles` is empty, `initParticles`
establishes it, and `animate` keeps it. -/

theorem update_oid {α : Type} [LinearOrderedField α] (sqrt : α → α) (width height : α)
    (mouse : Mouse α) (p : Particle α) : (p.update sqrt width height mouse).oid = p.oid := by
  unfold Particle.update
  simp only
  split_ifs <;> rfl

theorem initParticles_allocated {α : Type} [LinearOrderedField α] [FloorRing α]
    (env : Env α) (s : Scene α) (hw : 0 ≤ env.innerWidth) :
    (initParticles env s).allocated = s.allocated + ⌊env.innerWidth / 12⌋.toNat := by
  have hfloor : 0 ≤ ⌊env.innerWidth / 12⌋ := Int.floor_nonneg.mpr (div_nonneg hw (by norm_num))
  have hcast : ((⌊env.innerWidth / 12⌋.toNat : Nat) : ℤ) = ⌊env.innerWidth / 12⌋ :=
    Int.toNat_of_nonneg hfloor
  unfold initParticles
  simp only
  conv_lhs => rw [← hcast]
  rw [Int.toNat_natCast,
    pushLoop_eq_iterate env _ _ 0 _ (by simp), (iterate_pushParticle env _ _).2.2.2.2]

theorem initParticles_serials {α : Type} [LinearOrderedField α] [FloorRing α]
    (env : Env α) (s : Scene α) (hw : 0 ≤ env.innerWidth) :
    ∀ p ∈ (initParticles env s).particles, p.oid < (initParticles env s).allocated := by
  intro p hp
  rw [initParticles_particles env s hw] at hp
  rw [initParticles_allocated env s hw]
  obtain ⟨m, hm, rfl⟩ := List.mem_map.mp hp
  have := List.mem_range.mp hm
  simp only [Particle.new]
  omega

theorem animate_serials {α : Type} [LinearOrderedField α] (sqrt : α → α) (s : Scene α)
    (h : ∀ p ∈ s.particles, p.oid < s.allocated) :
    ∀ p ∈ (animate sqrt s).1.particles, p.oid < (animate sqrt s).1.allocated := by
  intro p hp
  rw [(animate_frame sqrt s).1] at hp
  obtain ⟨q, hq, rfl⟩ := List.mem_map.mp hp
  rw [update_oid]
  exact h q hq

/-! ### Rounding to the nearest double -/

theorem roundHalfEven_eq (x : ℚ) (m : ℤ)
    (h : 2 * |x - m| < 1 ∨ (2 * |x - m| = 1 ∧ m % 2 = 0)) : roundHalfEven x = m := by
  unfold roundHalfEven
  rcases le_total (m : ℚ) x with hmx | hxm
  · -- x = m + f, 0 ≤ f ≤ 1/2
    rw [abs_of_nonneg (sub_nonneg.mpr hmx)] at h
    have hfl : ⌊x⌋ = m := by
      rw [Int.floor_eq_iff]
      constructor
      · exact hmx
      · rcases h with h | ⟨h, _⟩ <;> linarith
    rw [hfl]
    rcases h with h | ⟨h1, h2⟩
    · rw [if_pos h]
    · rw [if_neg (by linarith), if_neg (by linarith), if_pos h2]
  · rcases eq_or_lt_of_le hxm with hEq | hlt
    · have hfl : ⌊x⌋ = m := by rw [hEq]; exact Int.floor_intCast m
      rw [hfl, hEq]
      simp
    · rw [abs_of_neg (sub_neg.mpr hlt)] at h
      have hfl : ⌊x⌋ = m - 1 := by
        rw [Int.floor_eq_iff]
        push_cast
        constructor
        · rcases h with h | ⟨h, _⟩ <;> linarith
        · linarith
      rw [hfl]
      push_cast
      rcases h with h | ⟨h1, h2⟩
      · rw [if_neg (by linarith), if_pos (by linarith)]
        ring
      · have hodd : ¬ (m - 1) % 2 = 0 := by omega
        rw [if_neg (by linarith), if_neg (by linarith), if_neg hodd]
        ring

theorem quantum_eq (q : ℚ) (e : ℤ) (hmin : -1022 ≤ e) (h1 : (2 : ℚ) ^ e ≤ |q|)
    (h2 : |q| < (2 : ℚ) ^ (e + 1)) : quantum q = 2 ^ (e - 52) := by
  have hpos : 0 < |q| := lt_of_lt_of_le (zpow_pos (by norm_num) e) h1
  have hlog : Int.log 2 |q| = e := by
    apply le_antisymm
    · have := (Int.lt_zpow_iff_log_lt (b := 2) (by norm_num) hpos).mp (by exact_mod_cast h2)
      omega
    · exact (Int.zpow_le_iff_le_log (b := 2) (by norm_num) hpos).mp (by exact_mod_cast h1)
  unfold quantum
  rw [hlog, max_eq_left hmin]

theorem roundDouble_eq (q : ℚ) (e m : ℤ) (hmin : -1022 ≤ e) (h1 : (2 : ℚ) ^ e ≤ |q|)
    (h2 : |q| < (2 : ℚ) ^ (e + 1))
    (h : 2 * |q / 2 ^ (e - 52) - m| < 1 ∨ (2 * |q / 2 ^ (e - 52) - m| = 1 ∧ m % 2 = 0)) :
    roundDouble q = m * 2 ^ (e - 52) := by
  unfold roundDouble
  rw [quantum_eq q e hmin h1 h2, roundHalfEven_eq _ m h]

theorem roundDouble_zero : roundDouble 0 = 0 := by
  simp [roundDouble, roundHalfEven]

theorem roundDouble_near (q : ℚ) (e m : ℤ) (hmin : -1022 ≤ e) (h1 : (2 : ℚ) ^ e ≤ q)
    (h2 : q < (2 : ℚ) ^ (e + 1))
    (h3 : (2 * m - 1) * (2 : ℚ) ^ (e - 52) < 2 * q)
    (h4 : 2 * q < (2 * m + 1) * (2 : ℚ) ^ (e - 52)) :
    roundDouble q = m * 2 ^ (e - 52) := by
  have hq : 0 < q := lt_of_lt_of_le (zpow_pos (by norm_num) e) h1
  have hu : (0 : ℚ) < 2 ^ (e - 52) := zpow_pos (by norm_num) _
  apply roundDouble_eq q e m hmin
  · rw [abs_of_pos hq]; exact h1
  · rw [abs_of_pos hq]; exact h2
  · left
    have e1 : q / 2 ^ (e - 52) - m = (q - m * 2 ^ (e - 52)) / 2 ^ (e - 52) := by
      field_simp
      ring
    rw [e1, abs_div, abs_of_pos hu, ← mul_div_assoc, div_lt_one hu]
    have : |q - m * 2 ^ (e - 52)| < 2 ^ (e - 52) / 2 := by
      rw [abs_lt]
      constructor <;> linarith
    linarith

theorem sqrtDouble_eq (q : ℚ) (e m : ℤ) (lo hi : ℕ) (hmin : -1022 ≤ e)
    (hlo : (lo : ℚ) = (2 * m - 1) * 2 ^ (e - 53) * 2 ^ 600)
    (hhi : (hi : ℚ) = (2 * m + 1) * 2 ^ (e - 53) * 2 ^ 600)
    (h1 : (2 : ℚ) ^ e ≤ (2 * m - 1) * 2 ^ (e - 53))
    (h2 : (2 * m + 1) * (2 : ℚ) ^ (e - 53) ≤ 2 ^ (e + 1))
    (h3 : ((lo : ℚ)) * lo < q * 4 ^ 600) (h4 : q * 4 ^ 600 < (hi : ℚ) * hi) :
    sqrtDouble q = m * 2 ^ (e - 52) := by
  have hqpos : 0 ≤ q * 4 ^ 600 := le_trans (mul_self_nonneg _) (le_of_lt h3)
  have hfl1 : (⌊q * 4 ^ 600⌋₊ : ℚ) ≤ q * 4 ^ 600 := Nat.floor_le hqpos
  have hfl2 : q * 4 ^ 600 < (⌊q * 4 ^ 600⌋₊ : ℚ) + 1 := Nat.lt_floor_add_one _
  have hlot : lo ≤ Nat.sqrt ⌊q * 4 ^ 600⌋₊ := by
    rw [Nat.le_sqrt]
    apply Nat.le_floor
    rw [Nat.cast_mul]
    exact le_of_lt h3
  have hthi : Nat.sqrt ⌊q * 4 ^ 600⌋₊ < hi := by
    rw [Nat.sqrt_lt]
    have : (⌊q * 4 ^ 600⌋₊ : ℚ) < ((hi * hi : ℕ) : ℚ) := by
      rw [Nat.cast_mul]
      exact lt_of_le_of_lt hfl1 h4
    exact Nat.cast_lt.mp this
  unfold sqrtDouble
  simp only
  generalize Nat.sqrt ⌊q * 4 ^ 600⌋₊ = t at hlot hthi
  have hp : (0 : ℚ) < 2 ^ 600 := pow_pos (by norm_num) 600
  have hlot' : (lo : ℚ) ≤ t := by exact_mod_cast hlot
  have hthi' : (t : ℚ) + 1 ≤ hi := by exact_mod_cast hthi
  have hval : (lo : ℚ) < (t : ℚ) + (if (t : ℚ) * t = q * 4 ^ 600 then 0 else 1 / 2) ∧
      (t : ℚ) + (if (t : ℚ) * t = q * 4 ^ 600 then 0 else 1 / 2) < hi := by
    split_ifs with hex
    · constructor
      · rw [add_zero]
        by_contra hcon
        have hle : (t : ℚ) ≤ lo := not_lt.mp hcon
        have : (t : ℚ) * t ≤ lo * lo :=
          mul_self_le_mul_self (Nat.cast_nonneg t) hle
        linarith
      · linarith
    · constructor <;> linarith
  obtain ⟨hv1, hv2⟩ := hval
  generalize (t : ℚ) + (if (t : ℚ) * t = q * 4 ^ 600 then 0 else 1 / 2) = v at hv1 hv2
  have e53 : (2 : ℚ) ^ (e - 52) = 2 * 2 ^ (e - 53) := by
    rw [show e - 52 = (e - 53) + 1 by ring, zpow_add₀ (by norm_num), zpow_one]
    ring
  have hu : (0 : ℚ) < 2 ^ (e - 53) := zpow_pos (by norm_num) _
  have b1 : (2 * m - 1) * (2 : ℚ) ^ (e - 53) < v / 2 ^ 600 := by
    rw [lt_div_iff₀ hp, ← hlo]; exact hv1
  have b2 : v / 2 ^ 600 < (2 * m + 1) * (2 : ℚ) ^ (e - 53) := by
    rw [div_lt_iff₀ hp, ← hhi]; exact hv2
  apply roundDouble_near _ e m hmin
  · linarith
  · linarith
  · rw [e53]; linarith
  · rw [e53]; linarith

theorem roundHalfEven_spec (x : ℚ) :
    2 * |x - roundHalfEven x| < 1 ∨
      (2 * |x - roundHalfEven x| = 1 ∧ roundHalfEven x % 2 = 0) := by
  have h0 : 0 ≤ x - ⌊x⌋ := sub_nonneg.mpr (Int.floor_le x)
  have h1 : x - ⌊x⌋ < 1 := by linarith [Int.lt_floor_add_one x]
  unfold roundHalfEven
  split_ifs with c1 c2 c3
  · left
    rw [abs_of_nonneg h0]; exact c1
  · left
    push_cast
    rw [abs_of_nonpos (by linarith)]
    linarith
  · right
    have : 2 * (x - ⌊x⌋) = 1 := le_antisymm (not_lt.mp c2) (not_lt.mp c1)
    exact ⟨by rw [abs_of_nonneg h0]; exact this, c3⟩
  · right
    have : 2 * (x - ⌊x⌋) = 1 := le_antisymm (not_lt.mp c2) (not_lt.mp c1)
    refine ⟨?_, by omega⟩
    push_cast
    rw [abs_of_nonpos (by linarith)]
    linarith

theorem roundHalfEven_intCast (n : ℤ) : roundHalfEven (n : ℚ) = n :=
  roundHalfEven_eq _ n (Or.inl (by simp))

theorem roundHalfEven_neg (x : ℚ) : roundHalfEven (-x) = -roundHalfEven x := by
  apply roundHalfEven_eq
  have e : -x - ((-roundHalfEven x : ℤ) : ℚ) = -(x - roundHalfEven x) := by
    push_cast; ring
  rw [e, abs_neg]
  rcases roundHalfEven_spec x with h | ⟨h1, h2⟩
  · exact Or.inl h
  · exact Or.inr ⟨h1, by omega⟩

theorem roundHalfEven_mono (x y : ℚ) (h : x ≤ y) : roundHalfEven x ≤ roundHalfEven y := by
  have hfl : ⌊x⌋ ≤ ⌊y⌋ := Int.floor_mono h
  have hx0 : 0 ≤ x - ⌊x⌋ := sub_nonneg.mpr (Int.floor_le x)
  have hy1 : y - ⌊y⌋ < 1 := by linarith [Int.lt_floor_add_one y]
  rcases eq_or_lt_of_le hfl with heq | hlt
  · unfold roundHalfEven
    rw [← heq]
    have hxy : x - ⌊x⌋ ≤ y - ⌊x⌋ := by linarith
    split_ifs <;> first | omega | (exfalso; linarith)
  · unfold roundHalfEven
    split_ifs <;> omega

theorem quantum_pos (q : ℚ) : 0 < quantum q := zpow_pos (by norm_num) _

theorem quantum_neg (q : ℚ) : quantum (-q) = quantum q := by
  unfold quantum; rw [abs_neg]

theorem roundDouble_neg (q : ℚ) : roundDouble (-q) = -roundDouble q := by
  unfold roundDouble
  rw [quantum_neg, neg_div, roundHalfEven_neg]
  push_cast
  ring

theorem roundDouble_nonneg (q : ℚ) (h : 0 ≤ q) : 0 ≤ roundDouble q := by
  unfold roundDouble
  apply mul_nonneg _ (le_of_lt (quantum_pos q))
  have : roundHalfEven ((0 : ℤ) : ℚ) ≤ roundHalfEven (q / quantum q) :=
    roundHalfEven_mono _ _ (by
      push_cast
      exact div_nonneg h (le_of_lt (quantum_pos q)))
  rw [roundHalfEven_intCast] at this
  exact_mod_cast this

/-- Exponent of the binade used to round `q`. -/
theorem quantum_of_pos (q : ℚ) (hq : 0 < q) :
    quantum q = 2 ^ (max (Int.log 2 q) (-1022) - 52) := by
  unfold quantum; rw [abs_of_pos hq]

theorem ratio_lt (q : ℚ) (hq : 0 < q) : q / quantum q < ((2 ^ 53 : ℤ) : ℚ) := by
  rw [div_lt_iff₀ (quantum_pos q), quantum_of_pos q hq]
  have h1 : q < (2 : ℚ) ^ (Int.log 2 q + 1) := by
    exact_mod_cast Int.lt_zpow_succ_log_self (b := 2) (by norm_num) q
  have h2 : (2 : ℚ) ^ (Int.log 2 q + 1) ≤ 2 ^ (max (Int.log 2 q) (-1022) + 1) :=
    zpow_le_zpow_right₀ (by norm_num) (by omega)
  have h3 : ((2 ^ 53 : ℤ) : ℚ) * 2 ^ (max (Int.log 2 q) (-1022) - 52)
      = 2 ^ (max (Int.log 2 q) (-1022) + 1) := by
    push_cast
    rw [show max (Int.log 2 q) (-1022) + 1 = 53 + (max (Int.log 2 q) (-1022) - 52) by ring,
      zpow_add₀ (by norm_num)]
    norm_num
  rw [h3]
  exact lt_of_lt_of_le h1 h2

theorem le_ratio (q : ℚ) (hq : 0 < q) (hn : -1022 ≤ Int.log 2 q) :
    ((2 ^ 52 : ℤ) : ℚ) ≤ q / quantum q := by
  rw [le_div_iff₀ (quantum_pos q), quantum_of_pos q hq, max_eq_left hn]
  have h1 : (2 : ℚ) ^ (Int.log 2 q) ≤ q := by
    exact_mod_cast Int.zpow_log_le_self (b := 2) (by norm_num) hq
  have h3 : ((2 ^ 52 : ℤ) : ℚ) * 2 ^ (Int.log 2 q - 52) = 2 ^ (Int.log 2 q) := by
    push_cast
    rw [show Int.log 2 q = 52 + (Int.log 2 q - 52) by ring, zpow_add₀ (by norm_num)]
    norm_num
  rw [h3]
  exact h1

theorem mantissa_le (q : ℚ) (hq : 0 < q) : roundHalfEven (q / quantum q) ≤ 2 ^ 53 := by
  have := roundHalfEven_mono _ _ (le_of_lt (ratio_lt q hq))
  rw [roundHalfEven_intCast] at this
  exact this

theorem le_mantissa (q : ℚ) (hq : 0 < q) (hn : -1022 ≤ Int.log 2 q) :
    2 ^ 52 ≤ roundHalfEven (q / quantum q) := by
  have := roundHalfEven_mono _ _ (le_ratio q hq hn)
  rw [roundHalfEven_intCast] at this
  exact this

theorem roundDouble_le_pow (q : ℚ) (hq : 0 < q) :
    roundDouble q ≤ 2 ^ (max (Int.log 2 q) (-1022) + 1) := by
  unfold roundDouble
  have h1 : ((roundHalfEven (q / quantum q) : ℤ) : ℚ) ≤ ((2 ^ 53 : ℤ) : ℚ) := by
    exact_mod_cast mantissa_le q hq
  have h2 := mul_le_mul_of_nonneg_right h1 (le_of_lt (quantum_pos q))
  refine le_trans h2 (le_of_eq ?_)
  rw [quantum_of_pos q hq]
  push_cast
  rw [show max (Int.log 2 q) (-1022) + 1 = 53 + (max (Int.log 2 q) (-1022) - 52) by ring,
    zpow_add₀ (by norm_num)]
  norm_num

theorem pow_le_roundDouble (q : ℚ) (hq : 0 < q) (hn : -1022 ≤ Int.log 2 q) :
    (2 : ℚ) ^ (Int.log 2 q) ≤ roundDouble q := by
  unfold roundDouble
  have h1 : ((2 ^ 52 : ℤ) : ℚ) ≤ ((roundHalfEven (q / quantum q) : ℤ) : ℚ) := by
    exact_mod_cast le_mantissa q hq hn
  have h2 := mul_le_mul_of_nonneg_right h1 (le_of_lt (quantum_pos q))
  refine le_trans (le_of_eq ?_) h2
  rw [quantum_of_pos q hq, max_eq_left hn]
  push_cast
  rw [show Int.log 2 q = 52 + (Int.log 2 q - 52) by ring, zpow_add₀ (by norm_num)]
  norm_num

theorem roundDouble_mono_pos (a b : ℚ) (ha : 0 < a) (hab : a ≤ b) :
    roundDouble a ≤ roundDouble b := by
  have hb : 0 < b := lt_of_lt_of_le ha hab
  have hlog : Int.log 2 a ≤ Int.log 2 b := Int.log_mono_right ha hab
  rcases eq_or_lt_of_le (max_le_max_right (-1022) hlog) with heq | hlt
  · have hu : quantum a = quantum b := by
      rw [quantum_of_pos a ha, quantum_of_pos b hb, heq]
    unfold roundDouble
    rw [hu]
    apply mul_le_mul_of_nonneg_right _ (le_of_lt (quantum_pos b))
    have := roundHalfEven_mono (a / quantum b) (b / quantum b)
      (div_le_div_of_nonneg_right hab (le_of_lt (quantum_pos b)))
    exact_mod_cast this
  · have hn : -1022 ≤ Int.log 2 b := by
      by_contra hcon
      rw [max_eq_right (le_of_lt (not_le.mp hcon))] at hlt
      have := le_max_right (Int.log 2 a) (-1022)
      omega
    rw [max_eq_left hn] at hlt
    calc roundDouble a ≤ 2 ^ (max (Int.log 2 a) (-1022) + 1) := roundDouble_le_pow a ha
      _ ≤ 2 ^ (Int.log 2 b) := zpow_le_zpow_right₀ (by norm_num) (by omega)
      _ ≤ roundDouble b := pow_le_roundDouble b hb hn

theorem roundDouble_mono (a b : ℚ) (hab : a ≤ b) : roundDouble a ≤ roundDouble b := by
  rcases lt_trichotomy 0 a with ha | ha | ha
  · exact roundDouble_mono_pos a b ha hab
  · subst ha
    rw [roundDouble_zero]
    exact roundDouble_nonneg b hab
  · rcases le_or_lt 0 b with hb | hb
    · have h1 : 0 ≤ roundDouble (-a) := roundDouble_nonneg _ (by linarith)
      rw [roundDouble_neg] at h1
      have h2 := roundDouble_nonneg b hb
      linarith
    · have h1 := roundDouble_mono_pos (-b) (-a) (by linarith) (by linarith)
      rw [roundDouble_neg, roundDouble_neg] at h1
      linarith

/-- A multiple of its own quantum is a double. -/
theorem roundDouble_of_ratio (r : ℚ) (n : ℤ) (h : r / quantum r = n) : roundDouble r = r := by
  unfold roundDouble
  rw [h, roundHalfEven_intCast, ← h]
  field_simp [ne_of_gt (quantum_pos r)]

theorem roundDouble_idem_pos (q : ℚ) (hq : 0 < q) :
    roundDouble (roundDouble q) = roundDouble q := by
  have hM0 : 0 ≤ roundHalfEven (q / quantum q) := by
    have := roundHalfEven_mono ((0 : ℤ) : ℚ) (q / quantum q)
      (by push_cast; exact div_nonneg (le_of_lt hq) (le_of_lt (quantum_pos q)))
    rw [roundHalfEven_intCast] at this
    exact this
  have hM1 := mantissa_le q hq
  have hu := quantum_of_pos q hq
  have hupos := quantum_pos q
  have hE : -1022 ≤ max (Int.log 2 q) (-1022) := le_max_right _ _
  generalize hMdef : roundHalfEven (q / quantum q) = M at hM0 hM1
  have hr : roundDouble q = M * quantum q := by unfold roundDouble; rw [hMdef]
  generalize hEdef : max (Int.log 2 q) (-1022) = E at hu hE
  rw [hr]
  rcases eq_or_lt_of_le hM0 with h0 | hpos
  · rw [← h0]; simp [roundDouble_zero]
  have hMq : (0 : ℚ) < (M : ℚ) := by exact_mod_cast hpos
  have hrpos : 0 < (M : ℚ) * quantum q := mul_pos hMq hupos
  by_cases hsmall : M < 2 ^ 52
  · -- subnormal range
    have hEeq : E = -1022 := by
      by_contra hne
      have hn : -1022 ≤ Int.log 2 q := by
        by_contra hcon
        rw [max_eq_right (le_of_lt (not_le.mp hcon))] at hEdef
        exact hne hEdef.symm
      have := le_mantissa q hq hn
      rw [hMdef] at this
      omega
    have hlt : (M : ℚ) * quantum q < 2 ^ (-1022 : ℤ) := by
      rw [hu, hEeq]
      have h1 : (M : ℚ) < ((2 ^ 52 : ℤ) : ℚ) := by exact_mod_cast hsmall
      have h2 := mul_lt_mul_of_pos_right h1 (zpow_pos (by norm_num : (0 : ℚ) < 2) (-1022 - 52))
      refine lt_of_lt_of_le h2 (le_of_eq ?_)
      push_cast
      rw [show (-1022 : ℤ) = 52 + (-1022 - 52) by norm_num, zpow_add₀ (by norm_num)]
      norm_num
    have hlog : Int.log 2 ((M : ℚ) * quantum q) < -1022 :=
      (Int.lt_zpow_iff_log_lt (b := 2) (by norm_num) hrpos).mp (by exact_mod_cast hlt)
    have hqu : quantum ((M : ℚ) * quantum q) = quantum q := by
      rw [quantum_of_pos _ hrpos, max_eq_right (le_of_lt hlog), hu, hEeq]
    apply roundDouble_of_ratio _ M
    rw [hqu]
    field_simp [ne_of_gt hupos]
  · by_cases htop : M = 2 ^ 53
    · have hval : (M : ℚ) * quantum q = 2 ^ (E + 1) := by
        rw [htop, hu]
        push_cast
        rw [show E + 1 = 53 + (E - 52) by ring, zpow_add₀ (by norm_num)]
        norm_num
      have hqu : quantum ((M : ℚ) * quantum q) = 2 ^ (E + 1 - 52) := by
        apply quantum_eq _ (E + 1) (by omega)
        · rw [abs_of_pos hrpos, hval]
        · rw [abs_of_pos hrpos, hval]
          exact zpow_lt_zpow_right₀ (by norm_num) (by omega)
      apply roundDouble_of_ratio _ (2 ^ 52)
      rw [hqu, hval]
      push_cast
      rw [show E + 1 = 52 + (E + 1 - 52) by ring, zpow_add₀ (by norm_num)]
      have : (2 : ℚ) ^ (52 + (E + 1 - 52) - 52) ≠ 0 := by positivity
      rw [show (52 + (E + 1 - 52) - 52 : ℤ) = E + 1 - 52 by ring]
      field_simp
      norm_num
    · have hM2 : M < 2 ^ 53 := lt_of_le_of_ne hM1 htop
      have hM3 : 2 ^ 52 ≤ M := not_lt.mp hsmall
      have hqu : quantum ((M : ℚ) * quantum q) = 2 ^ (E - 52) := by
        apply quantum_eq _ E hE
        · rw [abs_of_pos hrpos, hu]
          have h1 : ((2 ^ 52 : ℤ) : ℚ) ≤ (M : ℚ) := by exact_mod_cast hM3
          have h2 := mul_le_mul_of_nonneg_right h1
            (le_of_lt (zpow_pos (by norm_num : (0 : ℚ) < 2) (E - 52)))
          refine le_trans (le_of_eq ?_) h2
          push_cast
          rw [show E = 52 + (E - 52) by ring, zpow_add₀ (by norm_num)]
          norm_num
        · rw [abs_of_pos hrpos, hu]
          have h1 : (M : ℚ) < ((2 ^ 53 : ℤ) : ℚ) := by exact_mod_cast hM2
          have h2 := mul_lt_mul_of_pos_right h1 (zpow_pos (by norm_num : (0 : ℚ) < 2) (E - 52))
          refine lt_of_lt_of_le h2 (le_of_eq ?_)
          push_cast
          rw [show E + 1 = 53 + (E - 52) by ring, zpow_add₀ (by norm_num)]
          norm_num
      apply roundDouble_of_ratio _ M
      rw [hqu, hu]
      field_simp

theorem roundDouble_idem (q : ℚ) : roundDouble (roundDouble q) = roundDouble q := by
  rcases lt_trichotomy 0 q with h | h | h
  · exact roundDouble_idem_pos q h
  · subst h; rw [roundDouble_zero, roundDouble_zero]
  · have := roundDouble_idem_pos (-q) (by linarith)
    rw [roundDouble_neg, roundDouble_neg] at this
    linarith

/-- The rounding error is at most half the spacing. -/
theorem roundDouble_error (q : ℚ) : |roundDouble q - q| ≤ quantum q / 2 := by
  have hu := quantum_pos q
  have hspec : 2 * |q / quantum q - roundHalfEven (q / quantum q)| ≤ 1 := by
    rcases roundHalfEven_spec (q / quantum q) with h | ⟨h, _⟩
    · exact le_of_lt h
    · exact le_of_eq h
  have e : roundDouble q - q =
      -((q / quantum q - roundHalfEven (q / quantum q)) * quantum q) := by
    unfold roundDouble
    field_simp
    ring
  rw [e, abs_neg, abs_mul, abs_of_pos hu]
  nlinarith [abs_nonneg (q / quantum q - roundHalfEven (q / quantum q))]

theorem quantum_le (q : ℚ) (k : ℤ) (hq : 0 < q) (hk : -1022 ≤ k) (h : q < 2 ^ (k + 1)) :
    quantum q ≤ 2 ^ (k - 52) := by
  rw [quantum_of_pos q hq]
  apply zpow_le_zpow_right₀ (by norm_num)
  have : Int.log 2 q < k + 1 :=
    (Int.lt_zpow_iff_log_lt (b := 2) (by norm_num) hq).mp (by exact_mod_cast h)
  have := max_le (show Int.log 2 q ≤ k by omega) hk
  omega

/-- Natural numbers below `2 ^ 53` are doubles. -/
theorem roundDouble_natCast (n : ℕ) (h : n < 2 ^ 53) : roundDouble (n : ℚ) = n := by
  rcases Nat.eq_zero_or_pos n with h0 | hpos
  · subst h0; simpa using roundDouble_zero
  have hk1 : 2 ^ Nat.log 2 n ≤ n := Nat.pow_log_le_self 2 (by omega)
  have hk2 : n < 2 ^ (Nat.log 2 n + 1) := Nat.lt_pow_succ_log_self (by norm_num) n
  have hk3 : Nat.log 2 n < 53 := by
    by_contra hcon
    have : 2 ^ 53 ≤ 2 ^ Nat.log 2 n := Nat.pow_le_pow_right (by norm_num) (by omega)
    omega
  generalize Nat.log 2 n = k at hk1 hk2 hk3
  have hq : quantum (n : ℚ) = 2 ^ ((k : ℤ) - 52) := by
    apply quantum_eq _ k (by omega)
    · rw [abs_of_nonneg (by positivity)]
      rw [zpow_natCast]
      exact_mod_cast hk1
    · rw [abs_of_nonneg (by positivity)]
      rw [show (k : ℤ) + 1 = ((k + 1 : ℕ) : ℤ) by push_cast; ring, zpow_natCast]
      exact_mod_cast hk2
  apply roundDouble_of_ratio _ ((n : ℤ) * 2 ^ (52 - k))
  rw [hq]
  push_cast
  rw [div_eq_iff (by positivity), mul_assoc, ← zpow_natCast, ← zpow_add₀ (by norm_num)]
  rw [show ((52 - k : ℕ) : ℤ) + ((k : ℤ) - 52) = 0 by omega]
  simp

/-- For an integer width `n < 2 ^ 52` and a step `v ≤ 1`: if the rounded sum `x + v`
of some `x ≤ n` is beyond `n`, subtracting `v` again gives a double that is at most
`n`. -/
theorem roundDouble_return_le (n : ℕ) (hn1 : 1 ≤ n) (hn2 : n < 2 ^ 52) (x v : ℚ)
    (hx : x ≤ n) (hv : v ≤ 1) (hout : (n : ℚ) < roundDouble (x + v)) :
    roundDouble (roundDouble (x + v) + -v) ≤ n := by
  have hk1 : 2 ^ Nat.log 2 n ≤ n := Nat.pow_log_le_self 2 (by omega)
  have hk2 : n < 2 ^ (Nat.log 2 n + 1) := Nat.lt_pow_succ_log_self (by norm_num) n
  have hk3 : Nat.log 2 n < 52 := by
    by_contra hcon
    have : 2 ^ 52 ≤ 2 ^ Nat.log 2 n := Nat.pow_le_pow_right (by norm_num) (by omega)
    omega
  generalize Nat.log 2 n = k at hk1 hk2 hk3
  have hn : roundDouble (n : ℚ) = n := roundDouble_natCast n (by omega)
  have hk1q : (2 : ℚ) ^ (k : ℤ) ≤ n := by rw [zpow_natCast]; exact_mod_cast hk1
  have hk2q : (n : ℚ) + 1 ≤ 2 ^ ((k : ℤ) + 1) := by
    rw [show (k : ℤ) + 1 = ((k + 1 : ℕ) : ℤ) by push_cast; ring, zpow_natCast]
    have : n + 1 ≤ 2 ^ (k + 1) := hk2
    exact_mod_cast this
  have hn1q : (1 : ℚ) ≤ n := by exact_mod_cast hn1
  have hupos : (0 : ℚ) < 2 ^ ((k : ℤ) - 52) := zpow_pos (by norm_num) _
  have hu1 : (2 : ℚ) ^ ((k : ℤ) - 52) ≤ 2 ^ (-1 : ℤ) :=
    zpow_le_zpow_right₀ (by norm_num) (by omega)
  have hu1' : (2 : ℚ) ^ ((k : ℤ) - 52) ≤ 1 / 2 := by
    refine le_trans hu1 (le_of_eq ?_); norm_num
  have hs : 0 < x + v := by
    by_contra hcon
    have h1 := roundDouble_mono (x + v) 0 (not_lt.mp hcon)
    rw [roundDouble_zero] at h1
    linarith
  have hs2 : x + v ≤ 2 ^ ((k : ℤ) + 1) := by linarith
  have herr : roundDouble (x + v) - (x + v) ≤ 2 ^ ((k : ℤ) - 52) / 2 := by
    rcases eq_or_lt_of_le hs2 with heq | hlt
    · have hpow : roundDouble (x + v) = x + v := by
        rw [heq, show (k : ℤ) + 1 = ((k + 1 : ℕ) : ℤ) by push_cast; ring, zpow_natCast]
        have := roundDouble_natCast (2 ^ (k + 1)) (Nat.pow_lt_pow_right (by norm_num) (by omega))
        exact_mod_cast this
      rw [hpow, sub_self]
      positivity
    · have h1 := roundDouble_error (x + v)
      have h2 := quantum_le (x + v) k hs (by omega) hlt
      have h3 := le_abs_self (roundDouble (x + v) - (x + v))
      linarith
  have hy : roundDouble (x + v) + -v ≤ n + 2 ^ ((k : ℤ) - 52) / 2 := by linarith
  rcases le_or_lt (roundDouble (x + v) + -v) n with hle | hgt
  · have := roundDouble_mono _ _ hle
    rw [hn] at this
    exact this
  · have hval : roundDouble (roundDouble (x + v) + -v) =
        ((n : ℤ) * 2 ^ (52 - k) : ℤ) * 2 ^ ((k : ℤ) - 52) := by
      have hpos : 0 < roundDouble (x + v) + -v := by linarith
      have hmul : (((n : ℤ) * 2 ^ (52 - k) : ℤ) : ℚ) * 2 ^ ((k : ℤ) - 52) = n := by
        push_cast
        rw [mul_assoc, ← zpow_natCast, ← zpow_add₀ (by norm_num)]
        rw [show ((52 - k : ℕ) : ℤ) + ((k : ℤ) - 52) = 0 by omega]
        simp
      apply roundDouble_eq _ k _ (by omega)
      · rw [abs_of_pos hpos]; linarith
      · rw [abs_of_pos hpos]; linarith
      · have hd : (roundDouble (x + v) + -v) / 2 ^ ((k : ℤ) - 52) -
            (((n : ℤ) * 2 ^ (52 - k) : ℤ) : ℚ) =
            (roundDouble (x + v) + -v - n) / 2 ^ ((k : ℤ) - 52) := by
          rw [sub_div, ← hmul]
          field_simp
        rw [hd, abs_of_nonneg (div_nonneg (by linarith) (le_of_lt hupos))]
        have hle2 : 2 * ((roundDouble (x + v) + -v - n) / 2 ^ ((k : ℤ) - 52)) ≤ 1 := by
          rw [← mul_div_assoc, div_le_one hupos]
          linarith
        rcases eq_or_lt_of_le hle2 with heq | hlt
        · right
          refine ⟨heq, ?_⟩
          have : (52 - k) = (51 - k) + 1 := by omega
          rw [this, pow_succ, ← mul_assoc]
          exact Int.mul_emod_left _ _
        · left; exact hlt
    rw [hval]
    have hmul : (((n : ℤ) * 2 ^ (52 - k) : ℤ) : ℚ) * 2 ^ ((k : ℤ) - 52) = n := by
      push_cast
      rw [mul_assoc, ← zpow_natCast, ← zpow_add₀ (by norm_num)]
      rw [show ((52 - k : ℕ) : ℤ) + ((k : ℤ) - 52) = 0 by omega]
      simp
    rw [hmul]

/-! ### `Particle.update` in rounded arithmetic -/

theorem updateRounded_exact {α : Type} [LinearOrderedField α] (sqrt : α → α)
    (width height : α) (mouse : Mouse α) (p : Particle α) :
    p.updateRounded (fun a => a) sqrt width height mouse = p.update sqrt width height mouse :=
  rfl

theorem strokeAlphaRounded_exact {α : Type} [LinearOrderedField α] (d : α) :
    strokeAlphaRounded (fun a => a) d = strokeAlpha d := rfl

theorem connectRounded_exact {α : Type} [LinearOrderedField α] (sqrt : α → α)
    (P : List (Particle α)) (i j : Nat) :
    connectRounded (fun a => a) sqrt P i j = connect sqrt P i j := rfl

/-- The update with the pointer absent. -/
theorem updateRounded_no_pointer {α : Type} [LinearOrderedField α] (rnd sqrt : α → α)
    (width height : α) (mouse : Mouse α) (p : Particle α) (hm : mouse.x = none) :
    p.updateRounded rnd sqrt width height mouse =
      { p with
        x := rnd (p.x + p.vx)
        y := rnd (p.y + p.vy)
        vx := if rnd (p.x + p.vx) < 0 ∨ rnd (p.x + p.vx) > width then rnd (p.vx * -1)
              else p.vx
        vy := if rnd (p.y + p.vy) < 0 ∨ rnd (p.y + p.vy) > height then rnd (p.vy * -1)
              else p.vy } := by
  simp [Particle.updateRounded, hm]

/-- The update with the pointer at `(mx, my)` and the computed distance `d` below the
radius `R`: `ix`, `iy`, `dx`, `dy`, `d` name the intermediate values of the script. -/
theorem updateRounded_push {α : Type} [LinearOrderedField α] (rnd sqrt : α → α)
    (width height mx my R ix iy dx dy d : α) (p : Particle α)
    (hix : ix = rnd (p.x + p.vx)) (hiy : iy = rnd (p.y + p.vy))
    (hdx : dx = rnd (mx - ix)) (hdy : dy = rnd (my - iy))
    (hd : d = sqrt (rnd (rnd (dx * dx) + rnd (dy * dy)))) (hlt : d < R) :
    p.updateRounded rnd sqrt width height { x := some mx, y := some my, radius := R } =
      { p with
        x := rnd (ix - rnd (rnd (rnd (dx / d) * rnd (rnd (R - d) / R)) * 3))
        y := rnd (iy - rnd (rnd (rnd (dy / d) * rnd (rnd (R - d) / R)) * 3))
        vx := if ix < 0 ∨ ix > width then rnd (p.vx * -1) else p.vx
        vy := if iy < 0 ∨ iy > height then rnd (p.vy * -1) else p.vy } := by
  have hlt2 : sqrt (rnd (rnd (rnd (mx - rnd (p.x + p.vx)) * rnd (mx - rnd (p.x + p.vx))) +
      rnd (rnd (my - rnd (p.y + p.vy)) * rnd (my - rnd (p.y + p.vy))))) < R := by
    rw [← hix, ← hiy, ← hdx, ← hdy, ← hd]; exact hlt
  rw [hd, hdx, hdy, hix, hiy]
  simp [Particle.updateRounded, toNumber, hlt2]

/-- The update with the pointer at `(mx, my)` and the computed distance `d` not
below the radius `R`. -/
theorem updateRounded_far {α : Type} [LinearOrderedField α] (rnd sqrt : α → α)
    (width height mx my R ix iy dx dy d : α) (my0 : Option α) (p : Particle α)
    (hix : ix = rnd (p.x + p.vx)) (hiy : iy = rnd (p.y + p.vy))
    (hdx : dx = rnd (mx - ix)) (hdy : dy = rnd (my - iy))
    (hd : d = sqrt (rnd (rnd (dx * dx) + rnd (dy * dy)))) (hge : R ≤ d) :
    p.updateRounded rnd sqrt width height { x := some mx, y := some my, radius := R } =
      p.updateRounded rnd sqrt width height { x := none, y := my0, radius := R } := by
  have hnlt : ¬ sqrt (rnd (rnd (rnd (mx - rnd (p.x + p.vx)) * rnd (mx - rnd (p.x + p.vx))) +
      rnd (rnd (my - rnd (p.y + p.vy)) * rnd (my - rnd (p.y + p.vy))))) < R := by
    rw [← hix, ← hiy, ← hdx, ← hdy, ← hd]; exact not_lt.mpr hge
  simp [Particle.updateRounded, toNumber, hnlt]

theorem rnd_nonneg {α : Type} [LinearOrderedField α] (rnd : α → α)
    (hmono : ∀ a b, a ≤ b → rnd a ≤ rnd b) (hzero : rnd 0 = 0) (a : α) (h : 0 ≤ a) :
    0 ≤ rnd a := by
  rw [← hzero]; exact hmono _ _ h

theorem rnd_nonpos {α : Type} [LinearOrderedField α] (rnd : α → α)
    (hmono : ∀ a b, a ≤ b → rnd a ≤ rnd b) (hzero : rnd 0 = 0) (a : α) (h : a ≤ 0) :
    rnd a ≤ 0 := by
  rw [← hzero]; exact hmono _ _ h

/-- The push computed by the script has the sign of `dx`. -/
theorem push_sign {α : Type} [LinearOrderedField α] (rnd : α → α)
    (hmono : ∀ a b, a ≤ b → rnd a ≤ rnd b) (hzero : rnd 0 = 0)
    (dx d : α) (hd0 : 0 < d) (hd : d < 150) :
    (0 ≤ dx → 0 ≤ rnd (rnd (rnd (dx / d) * rnd (rnd (150 - d) / 150)) * 3)) ∧
    (dx ≤ 0 → rnd (rnd (rnd (dx / d) * rnd (rnd (150 - d) / 150)) * 3) ≤ 0) := by
  have hforce : 0 ≤ rnd (rnd (150 - d) / 150) := by
    apply rnd_nonneg rnd hmono hzero
    apply div_nonneg _ (by norm_num)
    apply rnd_nonneg rnd hmono hzero
    linarith
  constructor
  · intro h
    apply rnd_nonneg rnd hmono hzero
    apply mul_nonneg _ (by norm_num)
    apply rnd_nonneg rnd hmono hzero
    apply mul_nonneg _ hforce
    apply rnd_nonneg rnd hmono hzero
    exact div_nonneg h (le_of_lt hd0)
  · intro h
    apply rnd_nonpos rnd hmono hzero
    apply mul_nonpos_of_nonpos_of_nonneg _ (by norm_num)
    apply rnd_nonpos rnd hmono hzero
    apply mul_nonpos_of_nonpos_of_nonneg _ hforce
    apply rnd_nonpos rnd hmono hzero
    exact div_nonpos_of_nonpos_of_nonneg h (le_of_lt hd0)

theorem sq_dist_le_of_away {α : Type} [LinearOrderedField α] (a b m : α)
    (h1 : a ≤ m → b ≤ a) (h2 : m ≤ a → a ≤ b) : (a - m) ^ 2 ≤ (b - m) ^ 2 := by
  rcases le_total a m with h | h
  · have hb := h1 h
    have e1 : 0 ≤ m - a := by linarith
    have e2 : m - a ≤ m - b := by linarith
    have := mul_self_le_mul_self e1 e2
    calc (a - m) ^ 2 = (m - a) * (m - a) := by ring
      _ ≤ (m - b) * (m - b) := this
      _ = (b - m) ^ 2 := by ring
  · have hb := h2 h
    have e1 : 0 ≤ a - m := by linarith
    have e2 : a - m ≤ b - m := by linarith
    have := mul_self_le_mul_self e1 e2
    calc (a - m) ^ 2 = (a - m) * (a - m) := by ring
      _ ≤ (b - m) * (b - m) := this
      _ = (b - m) ^ 2 := by ring

/-- C4, amended: pointer repulsion in the script's arithmetic.  `rnd` is any rounding
that is monotone, fixes 0 and fixes its own results (as rounding to the nearest
double does); `ix`, `iy`, `dx`, `dy`, `d` are the integrated position, the offsets
to the pointer `(mx, my)` and the distance as the script computes them; `q0` is the
result of the same update with the pointer absent.  If `0 < d < 150` the update
subtracts from the integrated position the rounded push
`(dx / d) * ((150 - d) / 150) * 3` of each axis, no coordinate moves toward the
pointer, the distance to the pointer does not decrease, and the velocity is the one
the update without pointer gives; when no operation rounds and `d` is the Euclidean
distance, the displacement is the unit vector from the pointer to the particle times
`3 * (150 - d) / 150` and the distance becomes `d + 3 * (150 - d) / 150 > d`.  If
`150 ≤ d` the update equals the update without pointer. -/
theorem update_pointer_repulsion_rounded {α : Type} [LinearOrderedField α]
    (rnd sqrt : α → α) (width height mx my ix iy dx dy d : α) (my0 : Option α)
    (p q q0 : Particle α)
    (hmono : ∀ a b, a ≤ b → rnd a ≤ rnd b) (hzero : rnd 0 = 0)
    (hidem : ∀ a, rnd (rnd a) = rnd a)
    (hix : ix = rnd (p.x + p.vx)) (hiy : iy = rnd (p.y + p.vy))
    (hdx : dx = rnd (mx - ix)) (hdy : dy = rnd (my - iy))
    (hd : d = sqrt (rnd (rnd (dx * dx) + rnd (dy * dy))))
    (hq : q = p.updateRounded rnd sqrt width height
      { x := some mx, y := some my, radius := 150 })
    (hq0 : q0 = p.updateRounded rnd sqrt width height
      { x := none, y := my0, radius := 150 }) :
    q0.x = ix ∧ q0.y = iy ∧
    (0 < d → d < 150 →
      q.x = rnd (ix - rnd (rnd (rnd (dx / d) * rnd (rnd (150 - d) / 150)) * 3)) ∧
      q.y = rnd (iy - rnd (rnd (rnd (dy / d) * rnd (rnd (150 - d) / 150)) * 3)) ∧
      (ix ≤ mx → q.x ≤ ix) ∧ (mx ≤ ix → ix ≤ q.x) ∧
      (iy ≤ my → q.y ≤ iy) ∧ (my ≤ iy → iy ≤ q.y) ∧
      (ix - mx) ^ 2 + (iy - my) ^ 2 ≤ (q.x - mx) ^ 2 + (q.y - my) ^ 2 ∧
      q.vx = q0.vx ∧ q.vy = q0.vy ∧
      ((∀ a, rnd a = a) → d * d = (mx - ix) * (mx - ix) + (my - iy) * (my - iy) →
        ((ix - mx) / d) ^ 2 + ((iy - my) / d) ^ 2 = 1 ∧
        q.x = ix + (ix - mx) / d * (3 * (150 - d) / 150) ∧
        q.y = iy + (iy - my) / d * (3 * (150 - d) / 150) ∧
        (q.x - mx) ^ 2 + (q.y - my) ^ 2 = (d + 3 * (150 - d) / 150) ^ 2 ∧
        d < d + 3 * (150 - d) / 150)) ∧
    (150 ≤ d → q = q0) := by
  have h0 := updateRounded_no_pointer rnd sqrt width height
    { x := none, y := my0, radius := 150 } p rfl
  have hx0 : q0.x = ix := by rw [hq0, h0, hix]
  have hy0 : q0.y = iy := by rw [hq0, h0, hiy]
  have hrix : rnd ix = ix := by rw [hix, hidem]
  have hriy : rnd iy = iy := by rw [hiy, hidem]
  refine ⟨hx0, hy0, ?_, ?_⟩
  · intro hpos hlt
    have hpush := updateRounded_push rnd sqrt width height mx my 150 ix iy dx dy d p
      hix hiy hdx hdy hd hlt
    have hqx : q.x = rnd (ix - rnd (rnd (rnd (dx / d) * rnd (rnd (150 - d) / 150)) * 3)) := by
      rw [hq, hpush]
    have hqy : q.y = rnd (iy - rnd (rnd (rnd (dy / d) * rnd (rnd (150 - d) / 150)) * 3)) := by
      rw [hq, hpush]
    have hsx := push_sign rnd hmono hzero dx d hpos hlt
    have hsy := push_sign rnd hmono hzero dy d hpos hlt
    have hx1 : ix ≤ mx → q.x ≤ ix := by
      intro h
      have h1 : 0 ≤ dx := by rw [hdx]; exact rnd_nonneg rnd hmono hzero _ (by linarith)
      have := hsx.1 h1
      rw [hqx]
      calc rnd (ix - _) ≤ rnd ix := hmono _ _ (by linarith)
        _ = ix := hrix
    have hx2 : mx ≤ ix → ix ≤ q.x := by
      intro h
      have h1 : dx ≤ 0 := by rw [hdx]; exact rnd_nonpos rnd hmono hzero _ (by linarith)
      have := hsx.2 h1
      rw [hqx]
      calc ix = rnd ix := hrix.symm
        _ ≤ rnd (ix - _) := hmono _ _ (by linarith)
    have hy1 : iy ≤ my → q.y ≤ iy := by
      intro h
      have h1 : 0 ≤ dy := by rw [hdy]; exact rnd_nonneg rnd hmono hzero _ (by linarith)
      have := hsy.1 h1
      rw [hqy]
      calc rnd (iy - _) ≤ rnd iy := hmono _ _ (by linarith)
        _ = iy := hriy
    have hy2 : my ≤ iy → iy ≤ q.y := by
      intro h
      have h1 : dy ≤ 0 := by rw [hdy]; exact rnd_nonpos rnd hmono hzero _ (by linarith)
      have := hsy.2 h1
      rw [hqy]
      calc iy = rnd iy := hriy.symm
        _ ≤ rnd (iy - _) := hmono _ _ (by linarith)
    have hsqx : (ix - mx) ^ 2 ≤ (q.x - mx) ^ 2 := sq_dist_le_of_away ix q.x mx hx1 hx2
    have hsqy : (iy - my) ^ 2 ≤ (q.y - my) ^ 2 := sq_dist_le_of_away iy q.y my hy1 hy2
    refine ⟨hqx, hqy, hx1, hx2, hy1, hy2, add_le_add hsqx hsqy, ?_, ?_, ?_⟩
    · rw [hq, hq0, hpush, h0, hix]
    · rw [hq, hq0, hpush, h0, hiy]
    · intro hex hsq
      have hid : rnd = fun a => a := funext hex
      subst hid
      simp only at hix hiy hdx hdy hd
      have hq' : q = p.update sqrt width height { x := some mx, y := some my, radius := 150 } :=
        hq
      have hq0' : q0 = p.update sqrt width height { x := none, y := my0, radius := 150 } :=
        hq0
      have hd' : d = sqrt ((mx - (p.x + p.vx)) * (mx - (p.x + p.vx)) +
          (my - (p.y + p.vy)) * (my - (p.y + p.vy))) := by
        rw [hd, hdx, hdy, hix, hiy]
      have hsq' : d * d = (mx - (p.x + p.vx)) * (mx - (p.x + p.vx)) +
          (my - (p.y + p.vy)) * (my - (p.y + p.vy)) := by
        rw [hsq, hix, hiy]
      have hE := (update_pointer_repulsion_exact sqrt width height mx my d my0 p q q0
        hd' hsq' hq' hq0').2.2.1 hpos hlt
      rw [hx0, hy0] at hE
      exact ⟨hE.1, hE.2.1, hE.2.2.1, hE.2.2.2.1, hE.2.2.2.2.1⟩
  · intro hge
    rw [hq, hq0]
    exact updateRounded_far rnd sqrt width height mx my 150 ix iy dx dy d my0 p
      hix hiy hdx hdy hd hge

/-- Two updates across an edge, for any rounding `rnd` that is monotone, odd and fixes
0, with the pointer absent: the first update negates the velocity component, the
second gives `rnd (x' - vx)`, which is never below 0. -/
theorem updateRounded_out_of_bounds {α : Type} [LinearOrderedField α] (rnd sqrt : α → α)
    (width height : α) (mouse : Mouse α) (p q r : Particle α) (hm : mouse.x = none)
    (hmono : ∀ a b, a ≤ b → rnd a ≤ rnd b) (hzero : rnd 0 = 0)
    (hodd : ∀ a, rnd (-a) = -rnd a)
    (hvx : rnd p.vx = p.vx) (hvy : rnd p.vy = p.vy)
    (hq : q = p.updateRounded rnd sqrt width height mouse)
    (hr : r = q.updateRounded rnd sqrt width height mouse) :
    (0 ≤ p.x → p.x ≤ width → (q.x < 0 ∨ width < q.x) →
      q.x = rnd (p.x + p.vx) ∧ q.vx = -p.vx ∧ r.x = rnd (q.x + -p.vx) ∧ 0 ≤ r.x ∧
      (r.x ≤ width → r.vx = -p.vx) ∧ (width < r.x → r.vx = p.vx) ∧
      (q.x < 0 → -p.vx ≤ width → r.x ≤ width ∧ r.vx = -p.vx) ∧
      (rnd (p.x + p.vx) = p.x + p.vx → rnd p.x = p.x →
        r.x = p.x ∧ r.x ≤ width ∧ r.vx = -p.vx)) ∧
    (0 ≤ p.y → p.y ≤ height → (q.y < 0 ∨ height < q.y) →
      q.y = rnd (p.y + p.vy) ∧ q.vy = -p.vy ∧ r.y = rnd (q.y + -p.vy) ∧ 0 ≤ r.y ∧
      (r.y ≤ height → r.vy = -p.vy) ∧ (height < r.y → r.vy = p.vy) ∧
      (q.y < 0 → -p.vy ≤ height → r.y ≤ height ∧ r.vy = -p.vy) ∧
      (rnd (p.y + p.vy) = p.y + p.vy → rnd p.y = p.y →
        r.y = p.y ∧ r.y ≤ height ∧ r.vy = -p.vy)) := by
  have hq1 := updateRounded_no_pointer rnd sqrt width height mouse p hm
  have hr1 := updateRounded_no_pointer rnd sqrt width height mouse q hm
  have eqx : q.x = rnd (p.x + p.vx) := by rw [hq, hq1]
  have eqy : q.y = rnd (p.y + p.vy) := by rw [hq, hq1]
  have eqvx : q.vx = if q.x < 0 ∨ q.x > width then rnd (p.vx * -1) else p.vx := by
    rw [eqx]; rw [hq, hq1]
  have eqvy : q.vy = if q.y < 0 ∨ q.y > height then rnd (p.vy * -1) else p.vy := by
    rw [eqy]; rw [hq, hq1]
  have erx : r.x = rnd (q.x + q.vx) := by rw [hr, hr1]
  have ery : r.y = rnd (q.y + q.vy) := by rw [hr, hr1]
  have ervx : r.vx = if r.x < 0 ∨ r.x > width then rnd (q.vx * -1) else q.vx := by
    rw [erx]; rw [hr, hr1]
  have ervy : r.vy = if r.y < 0 ∨ r.y > height then rnd (q.vy * -1) else q.vy := by
    rw [ery]; rw [hr, hr1]
  refine ⟨?_, ?_⟩
  · intro h0 h1 hout
    have hqvx : q.vx = -p.vx := by
      rw [eqvx, if_pos hout, mul_neg_one, hodd, hvx]
    have hrx : r.x = rnd (q.x + -p.vx) := by rw [erx, hqvx]
    have hge : 0 ≤ r.x := by
      rw [hrx]
      apply rnd_nonneg rnd hmono hzero
      have : rnd p.vx ≤ rnd (p.x + p.vx) := hmono _ _ (by linarith)
      rw [hvx, ← eqx] at this
      linarith
    have hstay : r.x ≤ width → r.vx = -p.vx := by
      intro hb
      rw [ervx, if_neg, hqvx]
      rintro (h | h)
      · exact absurd h (not_lt.mpr hge)
      · exact absurd h (not_lt.mpr hb)
    have hflip : width < r.x → r.vx = p.vx := by
      intro hb
      rw [ervx, if_pos (Or.inr hb), hqvx, mul_neg_one, neg_neg, hvx]
    have hleft : q.x < 0 → -p.vx ≤ width → r.x ≤ width ∧ r.vx = -p.vx := by
      intro hneg hv
      have h2 : rnd (q.x + -p.vx) ≤ rnd (-p.vx) := hmono _ _ (by linarith)
      rw [hodd, hvx, ← hrx] at h2
      exact ⟨le_trans h2 hv, hstay (le_trans h2 hv)⟩
    refine ⟨eqx, hqvx, hrx, hge, hstay, hflip, hleft, ?_⟩
    intro hex hxrep
    have hrx2 : r.x = p.x := by
      rw [hrx, eqx, hex, add_neg_cancel_right, hxrep]
    exact ⟨hrx2, by rw [hrx2]; exact h1, hstay (by rw [hrx2]; exact h1)⟩
  · intro h0 h1 hout
    have hqvy : q.vy = -p.vy := by
      rw [eqvy, if_pos hout, mul_neg_one, hodd, hvy]
    have hry : r.y = rnd (q.y + -p.vy) := by rw [ery, hqvy]
    have hge : 0 ≤ r.y := by
      rw [hry]
      apply rnd_nonneg rnd hmono hzero
      have : rnd p.vy ≤ rnd (p.y + p.vy) := hmono _ _ (by linarith)
      rw [hvy, ← eqy] at this
      linarith
    have hstay : r.y ≤ height → r.vy = -p.vy := by
      intro hb
      rw [ervy, if_neg, hqvy]
      rintro (h | h)
      · exact absurd h (not_lt.mpr hge)
      · exact absurd h (not_lt.mpr hb)
    have hflip : height < r.y → r.vy = p.vy := by
      intro hb
      rw [ervy, if_pos (Or.inr hb), hqvy, mul_neg_one, neg_neg, hvy]
    have hleft : q.y < 0 → -p.vy ≤ height → r.y ≤ height ∧ r.vy = -p.vy := by
      intro hneg hv
      have h2 : rnd (q.y + -p.vy) ≤ rnd (-p.vy) := hmono _ _ (by linarith)
      rw [hodd, hvy, ← hry] at h2
      exact ⟨le_trans h2 hv, hstay (le_trans h2 hv)⟩
    refine ⟨eqy, hqvy, hry, hge, hstay, hflip, hleft, ?_⟩
    intro hex hyrep
    have hry2 : r.y = p.y := by
      rw [hry, eqy, hex, add_neg_cancel_right, hyrep]
    exact ⟨hry2, by rw [hry2]; exact h1, hstay (by rw [hry2]; exact h1)⟩

/-- C9, amended: with the pointer absent and the surface fixed, in the script's
arithmetic.  `rnd` is any rounding that is monotone, odd and fixes 0 (as rounding to
the nearest double does) and the velocity components are numbers (`rnd` fixes
them).  For a particle whose x is inside `[0, width]` before an update and outside
after it: that update negates `vx`; the next update gives `rnd (x' - vx)`, `x'` the
out-of-bounds value; the result is never below 0; `vx` keeps its negated value if
the result is at most `width`, and is flipped back otherwise; after an exit below 0
with a speed of at most `width` the result is inside `[0, width]` and there is no
second flip; when the first sum `x + vx` is not rounded, the result is the x the
particle started from, inside `[0, width]`, and there is no second flip; and in
doubles (`rnd = roundDouble`), when `width` is a whole number from 1 to below
`2 ^ 52` and the speed is at most one pixel per frame, the result is inside
`[0, width]` and there is no second flip.  Likewise for y against `height`. -/
theorem update_out_of_bounds_rounded (rnd sqrt : ℚ → ℚ)
    (width height : ℚ) (mouse : Mouse ℚ) (p q r : Particle ℚ) (hm : mouse.x = none)
    (hmono : ∀ a b, a ≤ b → rnd a ≤ rnd b) (hzero : rnd 0 = 0)
    (hodd : ∀ a, rnd (-a) = -rnd a)
    (hvx : rnd p.vx = p.vx) (hvy : rnd p.vy = p.vy)
    (hq : q = p.updateRounded rnd sqrt width height mouse)
    (hr : r = q.updateRounded rnd sqrt width height mouse) :
    (0 ≤ p.x → p.x ≤ width → (q.x < 0 ∨ width < q.x) →
      q.x = rnd (p.x + p.vx) ∧ q.vx = -p.vx ∧ r.x = rnd (q.x + -p.vx) ∧ 0 ≤ r.x ∧
      (r.x ≤ width → r.vx = -p.vx) ∧ (width < r.x → r.vx = p.vx) ∧
      (q.x < 0 → -p.vx ≤ width → r.x ≤ width ∧ r.vx = -p.vx) ∧
      (rnd (p.x + p.vx) = p.x + p.vx → rnd p.x = p.x →
        r.x = p.x ∧ r.x ≤ width ∧ r.vx = -p.vx) ∧
      (rnd = roundDouble → ∀ n : ℕ, width = n → 1 ≤ n → n < 2 ^ 52 → |p.vx| ≤ 1 →
        r.x ≤ width ∧ r.vx = -p.vx)) ∧
    (0 ≤ p.y → p.y ≤ height → (q.y < 0 ∨ height < q.y) →
      q.y = rnd (p.y + p.vy) ∧ q.vy = -p.vy ∧ r.y = rnd (q.y + -p.vy) ∧ 0 ≤ r.y ∧
      (r.y ≤ height → r.vy = -p.vy) ∧ (height < r.y → r.vy = p.vy) ∧
      (q.y < 0 → -p.vy ≤ height → r.y ≤ height ∧ r.vy = -p.vy) ∧
      (rnd (p.y + p.vy) = p.y + p.vy → rnd p.y = p.y →
        r.y = p.y ∧ r.y ≤ height ∧ r.vy = -p.vy) ∧
      (rnd = roundDouble → ∀ n : ℕ, height = n → 1 ≤ n → n < 2 ^ 52 → |p.vy| ≤ 1 →
        r.y ≤ height ∧ r.vy = -p.vy)) := by
  have hgen := updateRounded_out_of_bounds rnd sqrt width height mouse p q r hm hmono hzero
    hodd hvx hvy hq hr
  refine ⟨?_, ?_⟩
  · intro h0 h1 hout
    obtain ⟨a, b, c, d, e, f, g, h⟩ := hgen.1 h0 h1 hout
    refine ⟨a, b, c, d, e, f, g, h, ?_⟩
    intro hrnd n hw hn1 hn2 hv
    have hn1q : (1 : ℚ) ≤ n := by exact_mod_cast hn1
    rcases hout with hneg | hpos
    · exact g hneg (by rw [hw]; linarith [(abs_le.mp hv).1])
    · have hle : r.x ≤ width := by
        have hret := roundDouble_return_le n hn1 hn2 p.x p.vx (by rw [← hw]; exact h1)
          (abs_le.mp hv).2 (by rw [← hw, ← hrnd, ← a]; exact hpos)
        rw [← hrnd, ← a, ← c, ← hw] at hret
        exact hret
      exact ⟨hle, e hle⟩
  · intro h0 h1 hout
    obtain ⟨a, b, c, d, e, f, g, h⟩ := hgen.2 h0 h1 hout
    refine ⟨a, b, c, d, e, f, g, h, ?_⟩
    intro hrnd n hw hn1 hn2 hv
    have hn1q : (1 : ℚ) ≤ n := by exact_mod_cast hn1
    rcases hout with hneg | hpos
    · exact g hneg (by rw [hw]; linarith [(abs_le.mp hv).1])
    · have hle : r.y ≤ height := by
        have hret := roundDouble_return_le n hn1 hn2 p.y p.vy (by rw [← hw]; exact h1)
          (abs_le.mp hv).2 (by rw [← hw, ← hrnd, ← a]; exact hpos)
        rw [← hrnd, ← a, ← c, ← hw] at hret
        exact hret
      exact ⟨hle, e hle⟩

/-! ### Stroke alpha -/

theorem connectRounded_mem {α : Type} [LinearOrderedField α] (rnd sqrt : α → α)
    (P : List (Particle α)) (i j : Nat) (cmd : DrawCmd α)
    (h : cmd ∈ connectRounded rnd sqrt P i j) :
    ∃ d x1 y1 x2 y2, d < 120 ∧
      cmd = DrawCmd.line i j (strokeAlphaRounded rnd d) x1 y1 x2 y2 := by
  unfold connectRounded at h
  split at h
  · simp only at h
    split_ifs at h with hlt
    · exact ⟨_, _, _, _, _, hlt, List.mem_singleton.mp h⟩
    · simp at h
  · simp at h

theorem strokeAlphaRounded_nonneg {α : Type} [LinearOrderedField α] (rnd : α → α)
    (hmono : ∀ a b, a ≤ b → rnd a ≤ rnd b) (hzero : rnd 0 = 0) (d : α) (h : d < 120) :
    0 ≤ strokeAlphaRounded rnd d := by
  unfold strokeAlphaRounded
  have h1 : d / 800 ≤ 0.15 := by
    rw [div_le_iff₀ (by norm_num)]
    norm_num
    exact le_of_lt h
  have h2 : rnd (d / 800) ≤ rnd 0.15 := hmono _ _ h1
  exact rnd_nonneg rnd hmono hzero _ (by linarith)

/-- Refutation of C8 as stated: neither in exact arithmetic nor in the script's
doubles is there a distance `d` with `0 ≤ d < 120` whose stroke alpha is negative. -/
theorem strokeAlpha_negative_in_threshold_false :
    (¬ ∃ d : ℚ, 0 ≤ d ∧ d < 120 ∧ strokeAlpha d < 0) ∧
    (¬ ∃ d : ℚ, 0 ≤ d ∧ d < 120 ∧ strokeAlphaRounded roundDouble d < 0) := by
  constructor
  · rintro ⟨d, _, h, hneg⟩
    have := strokeAlphaRounded_nonneg (fun a : ℚ => a) (fun _ _ hab => hab) rfl d h
    rw [strokeAlphaRounded_exact] at this
    exact absurd hneg (not_lt.mpr this)
  · rintro ⟨d, _, h, hneg⟩
    have := strokeAlphaRounded_nonneg roundDouble roundDouble_mono roundDouble_zero d h
    exact absurd hneg (not_lt.mpr this)

/-- C8, amended: in the script's arithmetic (`rnd` any rounding that is monotone,
fixes 0 and fixes its own results, as rounding to the nearest double does), for
every pair distance `d` with `0 ≤ d < 120` the stroke alpha `0.15 - d / 800` is at
least 0 and at most the number `0.15`; so is the alpha of every segment that the
inner loop of `animate` strokes. -/
theorem strokeAlpha_nonneg_in_threshold {α : Type} [LinearOrderedField α] (rnd : α → α)
    (hmono : ∀ a b, a ≤ b → rnd a ≤ rnd b) (hzero : rnd 0 = 0)
    (hidem : ∀ a, rnd (rnd a) = rnd a) (d : α) (h0 : 0 ≤ d) (h : d < 120) :
    (0 ≤ strokeAlphaRounded rnd d ∧ strokeAlphaRounded rnd d ≤ rnd 0.15) ∧
    (∀ (sqrt : α → α) (P : List (Particle α)) (i j : Nat) (a x1 y1 x2 y2 : α),
      DrawCmd.line i j a x1 y1 x2 y2 ∈ connectRounded rnd sqrt P i j → 0 ≤ a) := by
  refine ⟨⟨strokeAlphaRounded_nonneg rnd hmono hzero d h, ?_⟩, ?_⟩
  · unfold strokeAlphaRounded
    have h3 : 0 ≤ rnd (d / 800) :=
      rnd_nonneg rnd hmono hzero _ (div_nonneg h0 (by norm_num))
    rw [← hidem (0.15 : α)]
    apply hmono
    rw [hidem]
    linarith
  · intro sqrt P i j a x1 y1 x2 y2 hmem
    obtain ⟨d', _, _, _, _, hlt, heq⟩ := connectRounded_mem rnd sqrt P i j _ hmem
    injection heq with _ _ ha
    rw [ha]
    exact strokeAlphaRounded_nonneg rnd hmono hzero d' hlt

/-! ### The script's doubles at concrete inputs -/

theorem roundDouble_half : roundDouble (1 / 2) = 1 / 2 := by
  have := roundDouble_near (1 / 2) (-1) (2 ^ 52) (by norm_num) (by norm_num) (by norm_num)
    (by norm_num) (by norm_num)
  rw [this]; norm_num

theorem roundDouble_one : roundDouble 1 = 1 := by
  have := roundDouble_near 1 0 (2 ^ 52) (by norm_num) (by norm_num) (by norm_num)
    (by norm_num) (by norm_num)
  rw [this]; norm_num

theorem roundDouble_300 : roundDouble 300 = 300 := by
  have := roundDouble_near 300 8 5277655813324800 (by norm_num) (by norm_num) (by norm_num)
    (by norm_num) (by norm_num)
  rw [this]; norm_num

theorem edge_sum : roundDouble (edgeParticle.x + edgeParticle.vx) =
    2252679422987469 / 2199023255552 := by
  have h := roundDouble_eq (edgeParticle.x + edgeParticle.vx) 10 4505358845974938
    (by norm_num)
    (by rw [abs_of_pos (by norm_num [edgeParticle])]; norm_num [edgeParticle])
    (by rw [abs_of_pos (by norm_num [edgeParticle])]; norm_num [edgeParticle])
    (Or.inr ⟨by norm_num [edgeParticle, abs_of_pos], by norm_num⟩)
  rw [h]; norm_num

theorem edge_back : roundDouble (2252679422987469 / 2199023255552 + -edgeParticle.vx) =
    2251579911359693 / 2199023255552 := by
  have h := roundDouble_near (2252679422987469 / 2199023255552 + -edgeParticle.vx) 9
    9006319645438772 (by norm_num) (by norm_num [edgeParticle]) (by norm_num [edgeParticle])
    (by norm_num [edgeParticle]) (by norm_num [edgeParticle])
  rw [h]; norm_num

theorem edge_first :
    edgeParticle.updateRounded roundDouble sqrtDouble 1024 768 Mouse.init =
      { edgeParticle with x := 2252679422987469 / 2199023255552, vx := -(1 / 2) } := by
  rw [updateRounded_no_pointer _ _ _ _ _ _ rfl, edge_sum]
  have hy : roundDouble (edgeParticle.y + edgeParticle.vy) = 0 := by
    rw [show edgeParticle.y + edgeParticle.vy = 0 by norm_num [edgeParticle]]
    exact roundDouble_zero
  have hv : roundDouble (edgeParticle.vx * -1) = -(1 / 2) := by
    rw [show edgeParticle.vx * -1 = -(1 / 2) by norm_num [edgeParticle], roundDouble_neg,
      roundDouble_half]
  rw [hy, hv, if_pos (Or.inr (by norm_num)), if_neg (by norm_num)]
  rfl

theorem edge_second :
    ({ edgeParticle with x := 2252679422987469 / 2199023255552, vx := -(1 / 2) } :
        Particle ℚ).updateRounded roundDouble sqrtDouble 1024 768 Mouse.init =
      { edgeParticle with x := 2251579911359693 / 2199023255552, vx := -(1 / 2) } := by
  rw [updateRounded_no_pointer _ _ _ _ _ _ rfl]
  have hx : roundDouble (2252679422987469 / 2199023255552 + -(1 / 2)) =
      2251579911359693 / 2199023255552 := edge_back
  have hy : roundDouble (edgeParticle.y + edgeParticle.vy) = 0 := by
    rw [show edgeParticle.y + edgeParticle.vy = 0 by norm_num [edgeParticle]]
    exact roundDouble_zero
  simp only [hx, hy]
  rw [if_neg (by norm_num), if_neg (by norm_num)]
  rfl

/-- Refutation of C9 as stated, in the script's doubles: on a surface of width 1024
the particle at x = 1023.9 with vx = 0.5 is at 1024.4 after one update and at
1023.9000000000001, not at 1023.9, after the next. -/
theorem update_return_not_exact :
    0 ≤ edgeParticle.x ∧ edgeParticle.x ≤ 1024 ∧
    1024 < (edgeParticle.updateRounded roundDouble sqrtDouble 1024 768 Mouse.init).x ∧
    ((edgeParticle.updateRounded roundDouble sqrtDouble 1024 768 Mouse.init).updateRounded
      roundDouble sqrtDouble 1024 768 Mouse.init).x = 2251579911359693 / 2199023255552 ∧
    ((edgeParticle.updateRounded roundDouble sqrtDouble 1024 768 Mouse.init).updateRounded
      roundDouble sqrtDouble 1024 768 Mouse.init).x ≠ edgeParticle.x := by
  rw [edge_first, edge_second]
  refine ⟨by norm_num [edgeParticle], by norm_num [edgeParticle], by norm_num, rfl, ?_⟩
  norm_num [edgeParticle]

/-- Witness of C9 amended: `edgeParticle` in the script's doubles, on a surface
1024 wide. -/
theorem update_out_of_bounds_rounded_witness :
    (edgeParticle.updateRounded roundDouble sqrtDouble 1024 768 Mouse.init).vx
      = -edgeParticle.vx ∧
    0 ≤ ((edgeParticle.updateRounded roundDouble sqrtDouble 1024 768
      Mouse.init).updateRounded roundDouble sqrtDouble 1024 768 Mouse.init).x ∧
    ((edgeParticle.updateRounded roundDouble sqrtDouble 1024 768
      Mouse.init).updateRounded roundDouble sqrtDouble 1024 768 Mouse.init).x ≤ 1024 :=
  have h := (update_out_of_bounds_rounded roundDouble sqrtDouble 1024 768 Mouse.init
    edgeParticle _ _ rfl roundDouble_mono roundDouble_zero roundDouble_neg
    roundDouble_half roundDouble_zero rfl rfl).1
    (by norm_num [edgeParticle]) (by norm_num [edgeParticle])
    (Or.inr (by rw [edge_first]; norm_num))
  ⟨h.2.1, h.2.2.2.1, (h.2.2.2.2.2.2.2.2 rfl 1024 (by norm_num) (by norm_num) (by norm_num)
    (by norm_num [edgeParticle, abs_le])).1⟩

theorem fast_velocity : roundDouble fastParticle.vx = fastParticle.vx := by
  have h := roundDouble_near fastParticle.vx 0 4503599627371136 (by norm_num)
    (by norm_num [fastParticle]) (by norm_num [fastParticle])
    (by norm_num [fastParticle]) (by norm_num [fastParticle])
  rw [h]; norm_num [fastParticle]

theorem fast_sum : roundDouble (fastParticle.x + fastParticle.vx) =
    4503599627370497 / 4398046511104 := by
  have h := roundDouble_near (fastParticle.x + fastParticle.vx) 10 4503599627370497
    (by norm_num) (by norm_num [fastParticle]) (by norm_num [fastParticle])
    (by norm_num [fastParticle]) (by norm_num [fastParticle])
  rw [h]; norm_num

theorem fast_back : roundDouble (4503599627370497 / 4398046511104 + -fastParticle.vx) =
    8998403161718785 / 8796093022208 := by
  have h := roundDouble_near (4503599627370497 / 4398046511104 + -fastParticle.vx) 9
    8998403161718785 (by norm_num) (by norm_num [fastParticle]) (by norm_num [fastParticle])
    (by norm_num [fastParticle]) (by norm_num [fastParticle])
  rw [h]; norm_num

/-- With a velocity above one pixel per frame the return can fall outside again, in
the script's doubles: on a surface of width 1023 the particle at x = 1023 with
vx = 1.0000000000001421 is at 1024.0000000000002 after one update and at
1023.0000000000001, still beyond the edge, after the next, where vx is flipped a
second time. -/
theorem update_second_flip_example :
    (fastParticle.updateRounded roundDouble sqrtDouble 1023 768 Mouse.init).x
      = 4503599627370497 / 4398046511104 ∧
    ((fastParticle.updateRounded roundDouble sqrtDouble 1023 768 Mouse.init).updateRounded
      roundDouble sqrtDouble 1023 768 Mouse.init).x = 8998403161718785 / 8796093022208 ∧
    (1023 : ℚ) < 8998403161718785 / 8796093022208 ∧
    ((fastParticle.updateRounded roundDouble sqrtDouble 1023 768 Mouse.init).updateRounded
      roundDouble sqrtDouble 1023 768 Mouse.init).vx = fastParticle.vx := by
  have hy : roundDouble (fastParticle.y + fastParticle.vy) = 0 := by
    rw [show fastParticle.y + fastParticle.vy = 0 by norm_num [fastParticle]]
    exact roundDouble_zero
  have hv : roundDouble (fastParticle.vx * -1) = -fastParticle.vx := by
    rw [mul_neg_one, roundDouble_neg, fast_velocity]
  have h1 : fastParticle.updateRounded roundDouble sqrtDouble 1023 768 Mouse.init =
      { fastParticle with x := 4503599627370497 / 4398046511104, vx := -fastParticle.vx } := by
    rw [updateRounded_no_pointer _ _ _ _ _ _ rfl, fast_sum, hy, hv,
      if_pos (Or.inr (by norm_num)), if_neg (by norm_num)]
    rfl
  have hv2 : roundDouble (-fastParticle.vx * -1) = fastParticle.vx := by
    rw [mul_neg_one, neg_neg, fast_velocity]
  have h2 : ({ fastParticle with
        x := 4503599627370497 / 4398046511104
        vx := -fastParticle.vx } : Particle ℚ).updateRounded roundDouble sqrtDouble
        1023 768 Mouse.init =
      { fastParticle with x := 8998403161718785 / 8796093022208, vx := fastParticle.vx } := by
    rw [updateRounded_no_pointer _ _ _ _ _ _ rfl]
    simp only [fast_back, hy, hv2]
    rw [if_pos (Or.inr (by norm_num)), if_neg (by norm_num)]
    rfl
  rw [h1, h2]
  exact ⟨rfl, rfl, by norm_num, rfl⟩

theorem rim_ix : rimX = roundDouble (rimParticle.x + rimParticle.vx) := by
  have h := roundDouble_near (rimParticle.x + rimParticle.vx) 8 6157265115545602
    (by norm_num) (by norm_num [rimParticle, rimX]) (by norm_num [rimParticle, rimX])
    (by norm_num [rimParticle, rimX]) (by norm_num [rimParticle, rimX])
  rw [h]; norm_num [rimX]

theorem rim_iy : (300 : ℚ) = roundDouble (rimParticle.y + rimParticle.vy) := by
  rw [show rimParticle.y + rimParticle.vy = 300 by norm_num [rimParticle], roundDouble_300]

theorem rim_dx : rimD = roundDouble (500 - rimX) := by
  have h := roundDouble_near (500 - rimX) 7 5277655813324796
    (by norm_num) (by norm_num [rimX]) (by norm_num [rimX])
    (by norm_num [rimX]) (by norm_num [rimX])
  rw [h]; norm_num [rimD]

theorem rim_dy : (0 : ℚ) = roundDouble (300 - 300) := by
  rw [sub_self, roundDouble_zero]

theorem rim_sq : roundDouble (rimD * rimD) = rimQ := by
  have h := roundDouble_near (rimD * rimD) 14 6184752906239991
    (by norm_num) (by norm_num [rimD]) (by norm_num [rimD])
    (by norm_num [rimD]) (by norm_num [rimD])
  rw [h]; norm_num [rimQ]

theorem rim_sum : roundDouble (rimQ + 0) = rimQ := by
  have h := roundDouble_near (rimQ + 0) 14 6184752906239991
    (by norm_num) (by norm_num [rimQ]) (by norm_num [rimQ])
    (by norm_num [rimQ]) (by norm_num [rimQ])
  rw [h]; norm_num [rimQ]

set_option exponentiation.threshold 1300 in
theorem rim_sqrt : sqrtDouble rimQ = rimD := by
  have h := sqrtDouble_eq rimQ 7 5277655813324796 ((2 * 5277655813324796 - 1) * 2 ^ 554)
    ((2 * 5277655813324796 + 1) * 2 ^ 554) (by norm_num) (by norm_num) (by norm_num)
    (by norm_num) (by norm_num) (by norm_num [rimQ]) (by norm_num [rimQ])
  rw [h]; norm_num [rimD]

theorem rim_distance : rimD = sqrtDouble (roundDouble (roundDouble (rimD * rimD) +
    roundDouble ((0 : ℚ) * 0))) := by
  rw [rim_sq, mul_zero, roundDouble_zero, rim_sum, rim_sqrt]

theorem rim_gap : roundDouble (150 - rimD) = 1 / 8796093022208 := by
  have h := roundDouble_near (150 - rimD) (-43) (2 ^ 52)
    (by norm_num) (by norm_num [rimD]) (by norm_num [rimD])
    (by norm_num [rimD]) (by norm_num [rimD])
  rw [h]; norm_num

theorem rim_force : roundDouble (1 / 8796093022208 / 150) = rimF := by
  have h := roundDouble_near (1 / 8796093022208 / 150) (-51) 7686143364045647
    (by norm_num) (by norm_num) (by norm_num) (by norm_num) (by norm_num)
  rw [h]; norm_num [rimF]

theorem rim_unit : roundDouble (rimD / rimD) = 1 := by
  rw [div_self (by norm_num [rimD]), roundDouble_one]

theorem rim_scaled : roundDouble (1 * rimF) = rimF := by
  have h := roundDouble_near (1 * rimF) (-51) 7686143364045647
    (by norm_num) (by norm_num [rimF]) (by norm_num [rimF])
    (by norm_num [rimF]) (by norm_num [rimF])
  rw [h]; norm_num [rimF]

theorem rim_push : roundDouble (rimF * 3) = rimG := by
  have h := roundDouble_near (rimF * 3) (-49) 5764607523034235
    (by norm_num) (by norm_num [rimF]) (by norm_num [rimF])
    (by norm_num [rimF]) (by norm_num [rimF])
  rw [h]; norm_num [rimG]

theorem rim_absorbed : roundDouble (rimX - rimG) = rimX := by
  have h := roundDouble_near (rimX - rimG) 8 6157265115545602
    (by norm_num) (by norm_num [rimX, rimG]) (by norm_num [rimX, rimG])
    (by norm_num [rimX, rimG]) (by norm_num [rimX, rimG])
  rw [h]; norm_num [rimX]

theorem rim_update_unfolded :
    rimParticle.updateRounded roundDouble sqrtDouble 1000 600
      { x := some 500, y := some 300, radius := 150 } =
      { rimParticle with
        x := roundDouble (rimX - roundDouble (roundDouble (roundDouble (rimD / rimD) *
          roundDouble (roundDouble (150 - rimD) / 150)) * 3))
        y := roundDouble (300 - roundDouble (roundDouble (roundDouble (0 / rimD) *
          roundDouble (roundDouble (150 - rimD) / 150)) * 3))
        vx := if rimX < 0 ∨ rimX > 1000 then roundDouble (rimParticle.vx * -1)
              else rimParticle.vx
        vy := if (300 : ℚ) < 0 ∨ (300 : ℚ) > 600 then roundDouble (rimParticle.vy * -1)
              else rimParticle.vy } :=
  updateRounded_push roundDouble sqrtDouble 1000 600 500 300 150
    rimX 300 rimD 0 rimD rimParticle rim_ix rim_iy rim_dx rim_dy rim_distance
    (by norm_num [rimD])

theorem rim_push_x : roundDouble (rimX - roundDouble (roundDouble (roundDouble (rimD / rimD) *
    roundDouble (roundDouble (150 - rimD) / 150)) * 3)) = rimX := by
  rw [rim_unit, rim_gap, rim_force, rim_scaled, rim_push, rim_absorbed]

theorem rim_push_y : roundDouble (300 - roundDouble (roundDouble (roundDouble (0 / rimD) *
    roundDouble (roundDouble (150 - rimD) / 150)) * 3)) = 300 := by
  rw [zero_div, roundDouble_zero, zero_mul, roundDouble_zero, zero_mul, roundDouble_zero,
    sub_zero, roundDouble_300]

theorem rim_update_literal :
    rimParticle.updateRounded roundDouble sqrtDouble 1000 600
      { x := some 500, y := some 300, radius := 150 } =
      { rimParticle with x := rimX, y := 300 } := by
  rw [rim_update_unfolded, rim_push_x, rim_push_y, if_neg (by norm_num [rimX]),
    if_neg (by norm_num)]

theorem rim_record : ({ rimParticle with x := rimX, y := 300 } : Particle ℚ) = rimParticle :=
  rfl

/-- The update of `rimParticle` with the pointer at (500, 300), in the script's
doubles, returns the particle unchanged. -/
theorem rim_update :
    rimParticle.updateRounded roundDouble sqrtDouble 1000 600 rimMouse = rimParticle :=
  rim_update_literal.trans rim_record

theorem pointerDistance_eq {α : Type} [LinearOrderedField α] (rnd sqrt : α → α)
    (mx my R ix iy dx dy d : α) (p : Particle α)
    (hix : ix = rnd (p.x + p.vx)) (hiy : iy = rnd (p.y + p.vy))
    (hdx : dx = rnd (mx - ix)) (hdy : dy = rnd (my - iy))
    (hd : d = sqrt (rnd (rnd (dx * dx) + rnd (dy * dy)))) :
    p.pointerDistance rnd sqrt { x := some mx, y := some my, radius := R } = d := by
  rw [hd, hdx, hdy, hix, hiy]
  rfl

theorem rim_pointerDistance :
    rimParticle.pointerDistance roundDouble sqrtDouble rimMouse = rimD :=
  pointerDistance_eq roundDouble sqrtDouble 500 300 150 rimX 300 rimD 0 rimD rimParticle
    rim_ix rim_iy rim_dx rim_dy rim_distance

/-- Refutation of C4 as stated, in the script's doubles: for the particle at rest at
(350.0000000000001, 300) and the pointer at (500, 300) the script computes the
distance 149.9999999999999, inside the radius, and the update leaves the particle
where it is: it is not moved away and its distance to the pointer does not grow. -/
theorem update_pointer_no_push :
    rimParticle.pointerDistance roundDouble sqrtDouble rimMouse = rimD ∧
    0 < rimD ∧ rimD < 150 ∧
    (rimParticle.updateRounded roundDouble sqrtDouble 1000 600 rimMouse).x = rimParticle.x ∧
    (rimParticle.updateRounded roundDouble sqrtDouble 1000 600 rimMouse).y = rimParticle.y := by
  refine ⟨rim_pointerDistance, by norm_num [rimD], by norm_num [rimD], by rw [rim_update],
    by rw [rim_update]⟩

/-- Witness of C4 amended: `rimParticle` and the pointer at (500, 300) in the script's
doubles; the particle, left of the pointer, is not moved to the right, and its
velocity is that of the update without pointer. -/
theorem update_pointer_repulsion_rounded_witness :
    (rimParticle.updateRounded roundDouble sqrtDouble 1000 600 rimMouse).x ≤ rimX ∧
    (rimParticle.updateRounded roundDouble sqrtDouble 1000 600 rimMouse).vx =
      (rimParticle.updateRounded roundDouble sqrtDouble 1000 600
        { x := none, y := none, radius := 150 }).vx :=
  have h := (update_pointer_repulsion_rounded roundDouble sqrtDouble 1000 600 500 300
    rimX 300 rimD 0 rimD none rimParticle _ _ roundDouble_mono roundDouble_zero
    roundDouble_idem rim_ix rim_iy rim_dx rim_dy rim_distance rfl rfl).2.2.1
    (by norm_num [rimD]) (by norm_num [rimD])
  ⟨h.2.2.1 (by norm_num [rimX]), h.2.2.2.2.2.2.2.1⟩

/-! ### Stroke alpha in the script's doubles -/

theorem roundDouble_literal : roundDouble 0.15 = 5404319552844595 / 36028797018963968 := by
  have h := roundDouble_near 0.15 (-3) 5404319552844595
    (by norm_num) (by norm_num) (by norm_num) (by norm_num) (by norm_num)
  rw [h]; norm_num

theorem roundDouble_ratio :
    roundDouble (belowThreshold / 800) = 5404319552844595 / 36028797018963968 := by
  have h := roundDouble_near (belowThreshold / 800) (-3) 5404319552844595
    (by norm_num) (by norm_num [belowThreshold]) (by norm_num [belowThreshold])
    (by norm_num [belowThreshold]) (by norm_num [belowThreshold])
  rw [h]; norm_num

/-- In the script's doubles the stroke alpha is exactly 0 at the largest distance
below the threshold, 119.99999999999999, for which `distance / 800` rounds to the
number `0.15`. -/
theorem strokeAlpha_zero_below_threshold :
    0 ≤ belowThreshold ∧ belowThreshold < 120 ∧
    strokeAlphaRounded roundDouble belowThreshold = 0 := by
  refine ⟨by norm_num [belowThreshold], by norm_num [belowThreshold], ?_⟩
  unfold strokeAlphaRounded
  rw [roundDouble_literal, roundDouble_ratio, sub_self, roundDouble_zero]

/-- Witness of C8 amended: the distance 119.99999999999999 in the script's doubles. -/
theorem strokeAlpha_nonneg_in_threshold_witness :
    0 ≤ strokeAlphaRounded roundDouble belowThreshold ∧
    strokeAlphaRounded roundDouble belowThreshold ≤ roundDouble 0.15 :=
  (strokeAlpha_nonneg_in_threshold roundDouble roundDouble_mono roundDouble_zero
    roundDouble_idem belowThreshold (by norm_num [belowThreshold])
    (by norm_num [belowThreshold])).1

end Eidikos
